import Mathlib

/-!
Verification development for the Venom middle-end of a smart-contract
compiler.  The definitions below are a shallow embedding, translated from
the Python source files of the repository (`vyper/venom/basicblock.py`,
`vyper/venom/analysis/cfg.py`, `vyper/venom/analysis/fcg.py`,
`vyper/venom/passes/mem_ssa.py`, `vyper/venom/passes/mem2var.py`,
`vyper/venom/passes/func_inliner.py`, `vyper/codegen/dfg.py`).
Python object identity is modelled with explicit numeric identities where
the source relies on it (instruction membership in sets/lists), and Python
dicts / OrderedSets are modelled with association lists / duplicate-free
lists that preserve insertion order.
-/

/-- An IR operand: a literal, a variable (its textual name, `%`-prefixed),
or a label (translated from `IROperand` / `IRLiteral` / `IRVariable` /
`IRLabel` in `basicblock.py`; equality in the source is structural and
additionally requires the same subclass, which the constructor tags give
us for free). -/
inductive VOp where
  | lit (v : Int)
  | var (name : String)
  | lbl (name : String)
deriving DecidableEq, Repr

/-- `IRVariable.__init__` prepends a `%` when the given name lacks one. -/
def mkVarName (s : String) : String :=
  if s.startsWith "%" then s else "%" ++ s

/-- An IR instruction (translated from `IRInstruction` in `basicblock.py`).
`iid` models Python object identity (two distinct instruction objects with
equal fields are different objects; the source keeps instructions in
identity-keyed sets and uses `list.index`).  `output` is the name of the
output variable, when present.  `annot` is the `annotation` field. -/
structure VInst where
  iid : Nat
  opcode : String
  operands : List VOp
  output : Option String := none
  annot : Option String := none
deriving DecidableEq, Repr

/-- `BB_TERMINATORS` from `basicblock.py` (the frozenset literal on lines
9-10 of the source, in source order). -/
def BB_TERMINATORS : List String :=
  ["jmp", "djmp", "jnz", "ret", "return", "stop", "exit"]

/-- `CFG_ALTERING_INSTRUCTIONS` from `basicblock.py`. -/
def CFG_ALTERING_INSTRUCTIONS : List String := ["jmp", "djmp", "jnz"]

/-- `IRInstruction.is_bb_terminator`: membership of the opcode in
`BB_TERMINATORS`. -/
def VInst.isBbTerminator (i : VInst) : Bool :=
  BB_TERMINATORS.contains i.opcode

/-- `IRInstruction.get_label_operands`: the label operands, in order. -/
def VInst.labelOperands (i : VInst) : List String :=
  i.operands.filterMap (fun o => match o with | .lbl s => some s | _ => none)

/-- A basic block (translated from `IRBasicBlock` in `basicblock.py`).
`cfgIn`/`cfgOut` hold predecessor/successor block labels (the source holds
block objects; blocks are identified by their label inside a function).
`garbage` is the `_garbage_instructions` scratch set, holding instruction
identities; the source uses a Python `set` of instruction objects, which
compares by identity, so we store `iid`s without duplicates. -/
structure VBlock where
  label : String
  instructions : List VInst
  cfgIn : List String := []
  cfgOut : List String := []
  outVars : List String := []
  garbage : List Nat := []
deriving DecidableEq, Repr

/-- `IRBasicBlock.is_terminated`: false on an empty block, otherwise
whether the last instruction is a terminator. -/
def VBlock.isTerminated (b : VBlock) : Bool :=
  match b.instructions.getLast? with
  | none => false
  | some i => i.isBbTerminator

/-- `IRBasicBlock.mark_for_removal`: add the instruction to the
dead-instruction scratch set (`set.add`: no duplicates, identity-keyed). -/
def VBlock.markForRemoval (b : VBlock) (i : VInst) : VBlock :=
  { b with garbage := if b.garbage.contains i.iid then b.garbage else b.garbage ++ [i.iid] }

/-- `IRBasicBlock.clear_dead_instructions`: when the scratch set is
non-empty, keep exactly the instructions not in it (in order) and empty
the set. -/
def VBlock.clearDeadInstructions (b : VBlock) : VBlock :=
  if b.garbage.length > 0 then
    { b with
      instructions := b.instructions.filter (fun inst => !(b.garbage.contains inst.iid)),
      garbage := [] }
  else b

/-- Calling `clear_dead_instructions` on the block at position `j` of a
function's block list (the method touches only its own block; this wrapper
makes the frame effect on the other blocks statable). -/
def clearDeadAt : List VBlock → Nat → List VBlock
  | [], _ => []
  | b :: bs, 0 => b.clearDeadInstructions :: bs
  | b :: bs, j + 1 => b :: clearDeadAt bs j

/-- The terminator set asserted by claim C1 (it lists `revert` as a
terminator; the source's `BB_TERMINATORS` is the authority to compare
against). -/
def c1ClaimedTerminators : List String :=
  ["jmp", "djmp", "jnz", "ret", "return", "stop", "revert", "exit"]

/-- A concrete `revert` instruction. -/
def revertInst : VInst := { iid := 0, opcode := "revert", operands := [] }

/-- A concrete block whose last instruction is a `revert`. -/
def revertBlock : VBlock :=
  { label := "bb0",
    instructions := [{ iid := 1, opcode := "mstore", operands := [.lit 0, .lit 0] }, revertInst] }

/-- Boolean list containment agrees with membership. -/
theorem vcontains_iff {α : Type _} [BEq α] [LawfulBEq α] (l : List α) (x : α) :
    l.contains x = true ↔ x ∈ l := List.elem_iff

/-- C1 counterexample: `is_bb_terminator` of a `revert` instruction is
`false`, although `revert` is in the claim's terminator set — so the
claimed equivalence fails at this instruction. -/
theorem c1_counterexample :
    ¬ ((revertInst.isBbTerminator = true) ↔ revertInst.opcode ∈ c1ClaimedTerminators) := by
  decide

/-- C1 (amended): `is_bb_terminator` is true iff the opcode is one of
`jmp, djmp, jnz, ret, return, stop, exit` — `revert` is not in the set —
hence a basic block whose last instruction is a `revert` does NOT count as
terminated. -/
theorem c1_amended (i : VInst) (b : VBlock) :
    (i.isBbTerminator = true ↔ i.opcode ∈ BB_TERMINATORS) ∧
    (b.instructions.getLast? = some i → i.opcode = "revert" → b.isTerminated = false) := by
  constructor
  · exact vcontains_iff BB_TERMINATORS i.opcode
  · intro hlast hop
    simp [VBlock.isTerminated, hlast, VInst.isBbTerminator, hop, BB_TERMINATORS]

/-- Witness for `c1_amended` at the concrete revert-terminated block. -/
theorem c1_amended_witness :
    (revertInst.isBbTerminator = true ↔ revertInst.opcode ∈ BB_TERMINATORS) ∧
    (revertBlock.instructions.getLast? = some revertInst → revertInst.opcode = "revert" →
      revertBlock.isTerminated = false) :=
  c1_amended revertInst revertBlock

/-- Marking a list of instructions for removal, then clearing: the
garbage set collects exactly the marked identities. -/
theorem markForRemoval_garbage (b : VBlock) (ms : List VInst) :
    (∀ x, x ∈ (ms.foldl VBlock.markForRemoval b).garbage ↔
        x ∈ b.garbage ∨ x ∈ ms.map VInst.iid) ∧
    (ms.foldl VBlock.markForRemoval b).instructions = b.instructions ∧
    (ms.foldl VBlock.markForRemoval b).label = b.label ∧
    (ms.foldl VBlock.markForRemoval b).cfgIn = b.cfgIn ∧
    (ms.foldl VBlock.markForRemoval b).cfgOut = b.cfgOut ∧
    (ms.foldl VBlock.markForRemoval b).outVars = b.outVars := by
  induction ms generalizing b with
  | nil => simp
  | cons m ms ih =>
    simp only [List.foldl_cons]
    obtain ⟨h1, h2, h3, h4, h5, h6⟩ := ih (b.markForRemoval m)
    have hgar : ∀ x, x ∈ (b.markForRemoval m).garbage ↔ x ∈ b.garbage ∨ x = m.iid := by
      intro x
      simp only [VBlock.markForRemoval]
      by_cases hc : b.garbage.contains m.iid = true
      · rw [if_pos hc]
        constructor
        · exact Or.inl
        · rintro (h | h)
          · exact h
          · rw [h]; exact (vcontains_iff _ _).1 hc
      · rw [if_neg hc]
        simp [or_comm]
    refine ⟨?_, h2, h3, h4, h5, h6⟩
    intro x
    rw [h1 x, hgar x]
    simp [or_assoc]

/-- `clearDeadAt` applies `clear_dead_instructions` at position `j`. -/
theorem clearDeadAt_get_self (fn : List VBlock) (j : Nat) (m : VBlock)
    (h : fn.get? j = some m) :
    (clearDeadAt fn j).get? j = some m.clearDeadInstructions := by
  induction fn generalizing j with
  | nil => simp at h
  | cons hd tl ih =>
    cases j with
    | zero => simp_all [clearDeadAt]
    | succ k =>
      simp only [clearDeadAt, List.get?]
      exact ih k (by simpa using h)

/-- `clearDeadAt` leaves every other position unchanged. -/
theorem clearDeadAt_get_ne (fn : List VBlock) (j k : Nat) (h : k ≠ j) :
    (clearDeadAt fn j).get? k = fn.get? k := by
  induction fn generalizing j k with
  | nil => simp [clearDeadAt]
  | cons hd tl ih =>
    cases j with
    | zero =>
      cases k with
      | zero => exact absurd rfl h
      | succ k2 => simp [clearDeadAt]
    | succ j2 =>
      cases k with
      | zero => simp [clearDeadAt]
      | succ k2 => simpa [clearDeadAt] using ih j2 k2 (by omega)

/-- C10: marking a set of instructions of a block for removal and then
calling `clear_dead_instructions` removes exactly the marked instructions,
preserves the relative order of the survivors (sublist), empties the
scratch set, leaves the block's other fields unchanged, and leaves all
other blocks of the function untouched. -/
theorem c10_clear_dead_instructions (fn : List VBlock) (j : Nat) (b : VBlock)
    (ms : List VInst) (hb : fn.get? j = some (ms.foldl VBlock.markForRemoval b))
    (hg : b.garbage = []) :
    let r := (ms.foldl VBlock.markForRemoval b).clearDeadInstructions
    r.instructions.Sublist b.instructions ∧
    (∀ i ∈ b.instructions, (i ∈ r.instructions ↔ i.iid ∉ ms.map VInst.iid)) ∧
    r.garbage = [] ∧
    r.label = b.label ∧ r.cfgIn = b.cfgIn ∧ r.cfgOut = b.cfgOut ∧ r.outVars = b.outVars ∧
    (clearDeadAt fn j).get? j = some r ∧
    (∀ k, k ≠ j → (clearDeadAt fn j).get? k = fn.get? k) := by
  obtain ⟨hgar, hins, hlab, hin, hout, hov⟩ := markForRemoval_garbage b ms
  set m := ms.foldl VBlock.markForRemoval b with hm
  have hmem : ∀ x, m.garbage.contains x = true ↔ x ∈ ms.map VInst.iid := by
    intro x
    rw [vcontains_iff, hgar x, hg]
    simp
  have hclear : m.clearDeadInstructions =
      if m.garbage.length > 0 then
        { m with instructions := m.instructions.filter (fun inst => !(m.garbage.contains inst.iid)),
                 garbage := [] }
      else m := rfl
  refine ⟨?_, ?_, ?_, ?_, ?_, ?_, ?_, clearDeadAt_get_self fn j m hb, fun k hk => clearDeadAt_get_ne fn j k hk⟩
  · by_cases hlen : m.garbage.length > 0
    · rw [hclear, if_pos hlen]
      simp only [hins]
      exact List.filter_sublist b.instructions
    · rw [hclear, if_neg hlen, hins]
  · intro i hi
    by_cases hlen : m.garbage.length > 0
    · rw [hclear, if_pos hlen]
      simp only [hins]
      constructor
      · intro hmemf hcon
        have hfalse := List.of_mem_filter hmemf
        simp only [Bool.not_eq_true'] at hfalse
        have hc2 : m.garbage.contains i.iid = true := (hmem i.iid).2 hcon
        rw [hfalse] at hc2
        exact absurd hc2 (by simp)
      · intro hnot
        refine List.mem_filter.2 ⟨hi, ?_⟩
        simp only [Bool.not_eq_true']
        by_contra hcon
        simp only [Bool.not_eq_false] at hcon
        exact hnot ((hmem i.iid).1 hcon)
    · rw [hclear, if_neg hlen, hins]
      have hge : m.garbage = [] := List.eq_nil_of_length_eq_zero (by omega)
      have hms : i.iid ∉ ms.map VInst.iid := by
        intro hx
        have : i.iid ∈ m.garbage := (hgar i.iid).2 (Or.inr hx)
        simp [hge] at this
      simp [hi, hms]
  · by_cases hlen : m.garbage.length > 0
    · rw [hclear, if_pos hlen]
    · rw [hclear, if_neg hlen]
      exact List.eq_nil_of_length_eq_zero (by omega)
  · by_cases hlen : m.garbage.length > 0
    · rw [hclear, if_pos hlen]; exact hlab
    · rw [hclear, if_neg hlen]; exact hlab
  · by_cases hlen : m.garbage.length > 0
    · rw [hclear, if_pos hlen]; exact hin
    · rw [hclear, if_neg hlen]; exact hin
  · by_cases hlen : m.garbage.length > 0
    · rw [hclear, if_pos hlen]; exact hout
    · rw [hclear, if_neg hlen]; exact hout
  · by_cases hlen : m.garbage.length > 0
    · rw [hclear, if_pos hlen]; exact hov
    · rw [hclear, if_neg hlen]; exact hov

/-- Witness for `c10_clear_dead_instructions` on a concrete two-block
function: the second instruction of block 0 is marked and cleared. -/
theorem c10_witness :
    let i0 : VInst := { iid := 0, opcode := "store", operands := [.lit 1], output := some "%x" }
    let i1 : VInst := { iid := 1, opcode := "store", operands := [.lit 2], output := some "%y" }
    let i2 : VInst := { iid := 2, opcode := "stop", operands := [] }
    let b : VBlock := { label := "bb0", instructions := [i0, i1, i2] }
    let other : VBlock := { label := "bb1", instructions := [i2] }
    let fn := [([i1].foldl VBlock.markForRemoval b), other]
    let r := ([i1].foldl VBlock.markForRemoval b).clearDeadInstructions
    r.instructions.Sublist b.instructions ∧
    (∀ i ∈ b.instructions, (i ∈ r.instructions ↔ i.iid ∉ [i1].map VInst.iid)) ∧
    r.garbage = [] ∧
    r.label = b.label ∧ r.cfgIn = b.cfgIn ∧ r.cfgOut = b.cfgOut ∧ r.outVars = b.outVars ∧
    (clearDeadAt fn 0).get? 0 = some r ∧
    (∀ k, k ≠ 0 → (clearDeadAt fn 0).get? k = fn.get? k) :=
  c10_clear_dead_instructions _ 0 _ [_] (by rfl) (by rfl)

/-! ### C7: analysis invalidation (`analysis/cfg.py`, `analysis/fcg.py`) -/

/-- The analyses appearing in the invalidation claim. -/
inductive AKind where
  | cfg
  | domTree
  | liveness
  | dfg
  | memSSA
  | fcg
deriving DecidableEq, Repr

/-- Direct invalidations performed by each analysis's `invalidate` method.
`CFGAnalysis.invalidate` (in `analysis/cfg.py`, under `src/`) calls
`invalidate_analysis` on exactly `DominatorTreeAnalysis`, `DFGAnalysis`
and `LivenessAnalysis`, in that order.  `FCGAnalysis.invalidate` (in
`analysis/fcg.py`, under `src/`) is a no-op (`pass`).  The remaining
entries are Modelled from the spec: the modules `analysis/analysis.py`,
`analysis/dfg.py`, `analysis/dominators.py` and `analysis/liveness.py`
are not under `src/`; the spec states the dependency graph
"CFG => (dominators, liveness, DFG, MemSSA, FCG); DFG => (MemSSA,
liveness)" and for the DFG edge we take the spec's word, while the
spec names no outgoing invalidations for dominators, liveness or
MemSSA. -/
def directInvalidations : AKind → List AKind
  | .cfg => [.domTree, .dfg, .liveness]
  | .fcg => []
  | .dfg => [.memSSA, .liveness]
  | .domTree => []
  | .liveness => []
  | .memSSA => []

/-- Modelled from the spec: the analysis cache's `invalidate_analysis`
drops the analysis and runs its own `invalidate`, so invalidation
propagates transitively along `directInvalidations` (spec:
"Invalidation is transitive along a fixed dependency graph"). -/
def invalClosure : Nat → List AKind → List AKind → List AKind
  | 0, acc, _ => acc
  | _ + 1, acc, [] => acc
  | fuel + 1, acc, x :: todo =>
    if acc.contains x then invalClosure fuel acc todo
    else invalClosure fuel (acc ++ [x]) (todo ++ directInvalidations x)

/-- The set of analyses invalidated (transitively) when `a.invalidate`
is called. -/
def invalidatedBy (a : AKind) : List AKind :=
  invalClosure 16 [] (directInvalidations a)

/-- C7 counterexample: the function call graph analysis is NOT invalidated
when `CFGAnalysis.invalidate` is called — `CFGAnalysis.invalidate` only
invalidates the dominator tree, the DFG and liveness, and no transitive
edge reaches the FCG (whose own `invalidate` is a no-op). -/
theorem c7_counterexample : AKind.fcg ∉ invalidatedBy AKind.cfg := by
  decide

/-- C7 (amended): invalidating the CFG analysis invalidates exactly the
dominator tree, the DFG, liveness, and (transitively, through the DFG)
Memory SSA; the function call graph is not invalidated. -/
theorem c7_amended (a : AKind) :
    a ∈ invalidatedBy AKind.cfg ↔
      a ∈ [AKind.domTree, AKind.dfg, AKind.liveness, AKind.memSSA] := by
  cases a <;> decide

/-! ### C4: `CFGAnalysis.analyze` (`analysis/cfg.py`) -/

/-- Label-keyed map to ordered label sets (models the per-block
`cfg_in` / `cfg_out` OrderedSets, keyed by block label). -/
abbrev LMap := List (String × List String)

/-- Lookup (first matching key, empty when absent). -/
def alook (m : LMap) (k : String) : List String :=
  match m.find? (fun e => e.1 == k) with
  | some e => e.2
  | none => []

/-- The keys of an `LMap`. -/
def keysOf (m : LMap) : List String := m.map (fun e => e.1)

/-- Update the (first) entry for key `k` in place; no-op when absent. -/
def updA : LMap → String → (List String → List String) → LMap
  | [], _, _ => []
  | e :: rest, k, f => if e.1 == k then (e.1, f e.2) :: rest else e :: updA rest k f

/-- `OrderedSet.add`: append if not already present. -/
def addOnce (l : List String) (x : String) : List String :=
  if l.contains x then l else l ++ [x]

/-- The successor labels contributed by a block (the loop body of
`CFGAnalysis.analyze`: for each instruction whose opcode is in
`CFG_ALTERING_INSTRUCTIONS`, its label operands, in program order). -/
def blockEdgeTargets (bb : VBlock) : List String :=
  ((bb.instructions.filter (fun i => CFG_ALTERING_INSTRUCTIONS.contains i.opcode)).map
    VInst.labelOperands).flatten

/-- All blocks start with empty `cfg_in` / `cfg_out` (the clearing loop at
the top of `analyze`). -/
def initMap (fn : List VBlock) : LMap := fn.map (fun b => (b.label, []))

/-- The `cfg_in`-building loop of `analyze` for one block: each target
label is looked up with `get_basic_block` (failure when the label names no
block of the function) and the current block is added to its `cfg_in`. -/
def processBlockEdges (fn : List VBlock) (m : LMap) (bb : VBlock) : Option LMap :=
  (blockEdgeTargets bb).foldlM
    (fun acc tgt =>
      if (fn.map VBlock.label).contains tgt then
        some (updA acc tgt (fun l => addOnce l bb.label))
      else none)
    m

/-- The second loop of `analyze` over a list of blocks: assert the block
non-empty and terminated, then record edges. -/
def step2Aux (fn : List VBlock) (bbs : List VBlock) (m : LMap) : Option LMap :=
  bbs.foldlM
    (fun acc bb =>
      if bb.instructions.isEmpty then none
      else if bb.isTerminated then processBlockEdges fn acc bb
      else none)
    m

/-- The third loop of `analyze`: mirror every `cfg_in` edge into the
predecessor's `cfg_out`. -/
def step3 (fn : List VBlock) (cin : LMap) : LMap :=
  fn.foldl
    (fun cout bb =>
      (alook cin bb.label).foldl (fun c inB => updA c inB (fun l => addOnce l bb.label)) cout)
    (initMap fn)

/-- The result of `CFGAnalysis.analyze`. -/
structure CFGState where
  cfgIn : LMap
  cfgOut : LMap
deriving DecidableEq, Repr

/-- `CFGAnalysis.analyze`, start to finish; `none` models a raised
assertion (empty or unterminated block) or a failed block lookup. -/
def cfgAnalyze (fn : List VBlock) : Option CFGState :=
  (step2Aux fn fn (initMap fn)).map (fun cin => { cfgIn := cin, cfgOut := step3 fn cin })

theorem keysOf_updA (m : LMap) (k : String) (f : List String → List String) :
    keysOf (updA m k f) = keysOf m := by
  induction m with
  | nil => rfl
  | cons e rest ih =>
    by_cases h : e.1 == k
    · simp [updA, h, keysOf]
    · simp only [updA, h, Bool.false_eq_true, if_false]
      simp [keysOf] at ih ⊢
      exact ih

theorem alook_cons (e : String × List String) (rest : LMap) (k : String) :
    alook (e :: rest) k = if e.1 == k then e.2 else alook rest k := by
  by_cases h : e.1 == k <;> simp [alook, List.find?_cons, h]

theorem alook_updA_self (m : LMap) (k : String) (f : List String → List String)
    (hk : k ∈ keysOf m) : alook (updA m k f) k = f (alook m k) := by
  induction m with
  | nil => simp [keysOf] at hk
  | cons e rest ih =>
    by_cases h : e.1 = k
    · simp [updA, h, alook_cons]
    · have hb : (e.1 == k) = false := by simp [h]
      have hk2 : k ∈ keysOf rest := by
        simp only [keysOf, List.map_cons, List.mem_cons] at hk
        rcases hk with h1 | h1
        · exact absurd h1.symm h
        · exact h1
      simp only [updA, hb, Bool.false_eq_true, if_false]
      rw [alook_cons, alook_cons, hb, if_neg (by simp), if_neg (by simp)]
      exact ih hk2

theorem alook_updA_ne (m : LMap) (k k2 : String) (f : List String → List String)
    (h : k2 ≠ k) : alook (updA m k f) k2 = alook m k2 := by
  induction m with
  | nil => rfl
  | cons e rest ih =>
    by_cases he : e.1 == k
    · have heq : e.1 = k := by simpa using he
      have hne : (e.1 == k2) = false := by
        simp only [beq_eq_false_iff_ne, ne_eq, heq]
        exact fun hh => h hh.symm
      simp only [updA, he, if_true]
      rw [alook_cons, alook_cons]
      simp only [hne, Bool.false_eq_true, if_false]
    · simp only [updA, he, Bool.false_eq_true, if_false]
      rw [alook_cons, alook_cons]
      by_cases he2 : e.1 == k2
      · simp [he2]
      · simp only [he2, Bool.false_eq_true, if_false]
        exact ih

theorem addOnce_mem (l : List String) (x y : String) :
    x ∈ addOnce l y ↔ x ∈ l ∨ x = y := by
  unfold addOnce
  by_cases h : l.contains y
  · rw [if_pos h]
    constructor
    · exact Or.inl
    · rintro (h1 | h1)
      · exact h1
      · rw [h1]; exact (vcontains_iff _ _).1 h
  · rw [if_neg h]
    simp

theorem processBlockEdges_spec (fn : List VBlock) (bb : VBlock) (ts : List String)
    (m m2 : LMap) (hkeys : keysOf m = fn.map VBlock.label)
    (h : ts.foldlM
      (fun acc tgt =>
        if (fn.map VBlock.label).contains tgt then
          some (updA acc tgt (fun l => addOnce l bb.label))
        else none) m = some m2) :
    keysOf m2 = keysOf m ∧
    (∀ k x, x ∈ alook m2 k ↔ x ∈ alook m k ∨ (x = bb.label ∧ k ∈ ts)) := by
  induction ts generalizing m with
  | nil =>
    simp only [List.foldlM_nil, Option.pure_def, Option.some.injEq] at h
    subst h
    exact ⟨rfl, by simp⟩
  | cons t ts ih =>
    simp only [List.foldlM_cons] at h
    by_cases hc : (fn.map VBlock.label).contains t
    · rw [if_pos hc] at h
      simp only [Option.bind_eq_bind, Option.some_bind] at h
      set m1 := updA m t (fun l => addOnce l bb.label) with hm1
      have hk1 : keysOf m1 = fn.map VBlock.label := by rw [hm1, keysOf_updA, hkeys]
      obtain ⟨hka, hma⟩ := ih m1 hk1 h
      refine ⟨by rw [hka, hm1, keysOf_updA], ?_⟩
      intro k x
      rw [hma k x]
      by_cases hkt : k = t
      · subst hkt
        have hkm : k ∈ keysOf m := by
          rw [hkeys]; exact (vcontains_iff _ _).1 hc
        rw [hm1, alook_updA_self m k _ hkm, addOnce_mem]
        constructor
        · rintro ((h1 | h1) | h1)
          · exact Or.inl h1
          · exact Or.inr ⟨h1, by simp⟩
          · exact Or.inr ⟨h1.1, by simp [h1.2]⟩
        · rintro (h1 | ⟨h1, h2⟩)
          · exact Or.inl (Or.inl h1)
          · simp only [List.mem_cons] at h2
            rcases h2 with h2 | h2
            · exact Or.inl (Or.inr h1)
            · exact Or.inr ⟨h1, h2⟩
      · rw [hm1, alook_updA_ne m t k _ hkt]
        constructor
        · rintro (h1 | h1)
          · exact Or.inl h1
          · exact Or.inr ⟨h1.1, by simp [h1.2]⟩
        · rintro (h1 | ⟨h1, h2⟩)
          · exact Or.inl h1
          · simp only [List.mem_cons] at h2
            rcases h2 with h2 | h2
            · exact absurd h2 hkt
            · exact Or.inr ⟨h1, h2⟩
    · rw [if_neg hc] at h
      simp at h

theorem alook_initMap (fn : List VBlock) (k : String) : alook (initMap fn) k = [] := by
  induction fn with
  | nil => rfl
  | cons b rest ih =>
    simp only [initMap, List.map_cons]
    rw [alook_cons]
    by_cases h : b.label == k
    · simp [h]
    · simp only [h, Bool.false_eq_true, if_false]
      exact ih

theorem keysOf_initMap (fn : List VBlock) : keysOf (initMap fn) = fn.map VBlock.label := by
  simp [keysOf, initMap]

theorem step2Aux_spec (fn : List VBlock) (bbs : List VBlock) (m m2 : LMap)
    (hkeys : keysOf m = fn.map VBlock.label)
    (h : step2Aux fn bbs m = some m2) :
    keysOf m2 = keysOf m ∧
    (∀ k x, x ∈ alook m2 k ↔
      x ∈ alook m k ∨ ∃ bb ∈ bbs, x = bb.label ∧ k ∈ blockEdgeTargets bb) := by
  induction bbs generalizing m with
  | nil =>
    simp only [step2Aux, List.foldlM_nil, Option.pure_def, Option.some.injEq] at h
    subst h
    exact ⟨rfl, by simp⟩
  | cons bb bbs ih =>
    simp only [step2Aux, List.foldlM_cons] at h
    by_cases he : bb.instructions.isEmpty
    · rw [if_pos he] at h; simp at h
    · rw [if_neg he] at h
      by_cases ht : bb.isTerminated
      · rw [if_pos ht] at h
        simp only [Option.bind_eq_bind] at h
        obtain ⟨m1, hm1, hrest⟩ := Option.bind_eq_some.1 h
        obtain ⟨hk1, hmem1⟩ := processBlockEdges_spec fn bb (blockEdgeTargets bb) m m1 hkeys hm1
        obtain ⟨hk2, hmem2⟩ := ih m1 (by rw [hk1, hkeys]) hrest
        refine ⟨by rw [hk2, hk1], ?_⟩
        intro k x
        rw [hmem2 k x, hmem1 k x]
        constructor
        · rintro ((h1 | h1) | h1)
          · exact Or.inl h1
          · exact Or.inr ⟨bb, by simp, h1.1, h1.2⟩
          · obtain ⟨b2, hb2, hx⟩ := h1
            exact Or.inr ⟨b2, by simp [hb2], hx⟩
        · rintro (h1 | ⟨b2, hb2, hx⟩)
          · exact Or.inl (Or.inl h1)
          · simp only [List.mem_cons] at hb2
            rcases hb2 with hb2 | hb2
            · subst hb2
              exact Or.inl (Or.inr hx)
            · exact Or.inr ⟨b2, hb2, hx⟩
      · rw [if_neg ht] at h; simp at h

theorem step3_inner_spec (ins : List String) (lbl : String) (cout : LMap)
    (hk : ∀ i ∈ ins, i ∈ keysOf cout) :
    keysOf (ins.foldl (fun c inB => updA c inB (fun l => addOnce l lbl)) cout) = keysOf cout ∧
    (∀ a x, x ∈ alook (ins.foldl (fun c inB => updA c inB (fun l => addOnce l lbl)) cout) a ↔
      x ∈ alook cout a ∨ (x = lbl ∧ a ∈ ins)) := by
  induction ins generalizing cout with
  | nil => exact ⟨rfl, by simp⟩
  | cons i ins ih =>
    simp only [List.foldl_cons]
    set c1 := updA cout i (fun l => addOnce l lbl) with hc1
    have hki : i ∈ keysOf cout := hk i (by simp)
    have hk1 : ∀ j ∈ ins, j ∈ keysOf c1 := by
      intro j hj
      rw [hc1, keysOf_updA]
      exact hk j (by simp [hj])
    obtain ⟨hka, hma⟩ := ih c1 hk1
    refine ⟨by rw [hka, hc1, keysOf_updA], ?_⟩
    intro a x
    rw [hma a x]
    by_cases hai : a = i
    · subst hai
      rw [hc1, alook_updA_self cout a _ hki, addOnce_mem]
      constructor
      · rintro ((h1 | h1) | h1)
        · exact Or.inl h1
        · exact Or.inr ⟨h1, by simp⟩
        · exact Or.inr ⟨h1.1, by simp [h1.2]⟩
      · rintro (h1 | ⟨h1, h2⟩)
        · exact Or.inl (Or.inl h1)
        · simp only [List.mem_cons] at h2
          rcases h2 with h2 | h2
          · exact Or.inl (Or.inr h1)
          · exact Or.inr ⟨h1, h2⟩
    · rw [hc1, alook_updA_ne cout i a _ hai]
      constructor
      · rintro (h1 | h1)
        · exact Or.inl h1
        · exact Or.inr ⟨h1.1, by simp [h1.2]⟩
      · rintro (h1 | ⟨h1, h2⟩)
        · exact Or.inl h1
        · simp only [List.mem_cons] at h2
          rcases h2 with h2 | h2
          · exact absurd h2 hai
          · exact Or.inr ⟨h1, h2⟩

theorem step3_spec (fn : List VBlock) (bbs : List VBlock) (cin : LMap) (cout : LMap)
    (hkeys : keysOf cout = fn.map VBlock.label)
    (hin : ∀ k x, x ∈ alook cin k → x ∈ fn.map VBlock.label) :
    keysOf (bbs.foldl
      (fun c bb => (alook cin bb.label).foldl
        (fun c2 inB => updA c2 inB (fun l => addOnce l bb.label)) c) cout) = keysOf cout ∧
    (∀ a x, x ∈ alook (bbs.foldl
      (fun c bb => (alook cin bb.label).foldl
        (fun c2 inB => updA c2 inB (fun l => addOnce l bb.label)) c) cout) a ↔
      x ∈ alook cout a ∨ ∃ bb ∈ bbs, x = bb.label ∧ a ∈ alook cin bb.label) := by
  induction bbs generalizing cout with
  | nil => exact ⟨rfl, by simp⟩
  | cons bb bbs ih =>
    simp only [List.foldl_cons]
    have hkin : ∀ i ∈ alook cin bb.label, i ∈ keysOf cout := by
      intro i hi
      rw [hkeys]
      exact hin bb.label i hi
    obtain ⟨hk1, hm1⟩ := step3_inner_spec (alook cin bb.label) bb.label cout hkin
    set c1 := (alook cin bb.label).foldl
      (fun c2 inB => updA c2 inB (fun l => addOnce l bb.label)) cout with hc1
    obtain ⟨hk2, hm2⟩ := ih c1 (by rw [hc1, hk1, hkeys])
    refine ⟨by rw [hk2, hc1, hk1], ?_⟩
    intro a x
    rw [hm2 a x, hm1 a x]
    constructor
    · rintro ((h1 | h1) | h1)
      · exact Or.inl h1
      · exact Or.inr ⟨bb, by simp, h1.1, h1.2⟩
      · obtain ⟨b2, hb2, hx⟩ := h1
        exact Or.inr ⟨b2, by simp [hb2], hx⟩
    · rintro (h1 | ⟨b2, hb2, hx⟩)
      · exact Or.inl (Or.inl h1)
      · simp only [List.mem_cons] at hb2
        rcases hb2 with hb2 | hb2
        · subst hb2
          exact Or.inl (Or.inr hx)
        · exact Or.inr ⟨b2, hb2, hx⟩

theorem mem_blockEdgeTargets (bb : VBlock) (k : String) :
    k ∈ blockEdgeTargets bb ↔
      ∃ i ∈ bb.instructions, i.opcode ∈ CFG_ALTERING_INSTRUCTIONS ∧ k ∈ i.labelOperands := by
  simp only [blockEdgeTargets, List.mem_flatten, List.mem_map, List.mem_filter]
  constructor
  · rintro ⟨l, ⟨i, ⟨hi, hop⟩, rfl⟩, hk⟩
    exact ⟨i, hi, (vcontains_iff _ _).1 hop, hk⟩
  · rintro ⟨i, hi, hop, hk⟩
    exact ⟨i.labelOperands, ⟨i, ⟨hi, (vcontains_iff _ _).2 hop⟩, rfl⟩, hk⟩

theorem label_inj (fn : List VBlock) (hnd : (fn.map VBlock.label).Nodup)
    (a b : VBlock) (ha : a ∈ fn) (hb : b ∈ fn) (h : a.label = b.label) : a = b :=
  List.inj_on_of_nodup_map hnd ha hb h

/-- C4: if `CFGAnalysis.analyze` completes on a function with distinct
block labels (its assertions require every block non-empty and
terminated, and every CFG-altering label operand to resolve), then for
any two blocks A, B of the function: B is a `cfg_out` successor of A iff
A is a `cfg_in` predecessor of B, and this holds exactly when some
instruction of A with opcode in `jmp, djmp, jnz` carries B's label among
its label operands. -/
theorem c4_cfg_consistency (fn : List VBlock) (st : CFGState)
    (hnd : (fn.map VBlock.label).Nodup)
    (h : cfgAnalyze fn = some st)
    (A B : VBlock) (hA : A ∈ fn) (hB : B ∈ fn) :
    (B.label ∈ alook st.cfgOut A.label ↔ A.label ∈ alook st.cfgIn B.label) ∧
    (A.label ∈ alook st.cfgIn B.label ↔
      ∃ i ∈ A.instructions, i.opcode ∈ CFG_ALTERING_INSTRUCTIONS ∧
        B.label ∈ i.labelOperands) := by
  simp only [cfgAnalyze, Option.map_eq_some'] at h
  obtain ⟨cin, hcin, hst⟩ := h
  obtain ⟨hkeys, hmem⟩ := step2Aux_spec fn fn (initMap fn) cin (keysOf_initMap fn) hcin
  have hcinMem : ∀ k x, x ∈ alook cin k ↔
      ∃ bb ∈ fn, x = bb.label ∧ k ∈ blockEdgeTargets bb := by
    intro k x
    rw [hmem k x, alook_initMap]
    simp
  have hinLabels : ∀ k x, x ∈ alook cin k → x ∈ fn.map VBlock.label := by
    intro k x hx
    obtain ⟨bb, hbb, rfl, _⟩ := (hcinMem k x).1 hx
    exact List.mem_map.2 ⟨bb, hbb, rfl⟩
  obtain ⟨hk3, hm3⟩ := step3_spec fn fn cin (initMap fn) (keysOf_initMap fn) hinLabels
  have hcoutMem : ∀ a x, x ∈ alook st.cfgOut a ↔
      ∃ bb ∈ fn, x = bb.label ∧ a ∈ alook cin bb.label := by
    intro a x
    rw [← hst]
    simp only [step3]
    rw [hm3 a x, alook_initMap]
    simp
  have hIn : A.label ∈ alook cin B.label ↔
      ∃ i ∈ A.instructions, i.opcode ∈ CFG_ALTERING_INSTRUCTIONS ∧
        B.label ∈ i.labelOperands := by
    rw [hcinMem]
    constructor
    · rintro ⟨bb, hbb, heq, hk⟩
      have : bb = A := label_inj fn hnd bb A hbb hA heq.symm
      subst this
      exact (mem_blockEdgeTargets bb B.label).1 hk
    · intro hi
      exact ⟨A, hA, rfl, (mem_blockEdgeTargets A B.label).2 hi⟩
  have hcinEq : st.cfgIn = cin := by rw [← hst]
  constructor
  · rw [hcinEq]
    rw [hcoutMem A.label B.label]
    constructor
    · rintro ⟨bb, hbb, heq, hk⟩
      have : bb = B := label_inj fn hnd bb B hbb hB heq.symm
      subst this
      exact hk
    · intro hk
      exact ⟨B, hB, rfl, hk⟩
  · rw [hcinEq]
    exact hIn

/-- A two-block function for the C4 witness: `bb0: jnz %c @bb0 @bb1`,
`bb1: stop`. -/
def c4Fn : List VBlock :=
  [{ label := "bb0",
     instructions := [{ iid := 0, opcode := "jnz",
                        operands := [.var "%c", .lbl "bb0", .lbl "bb1"] }] },
   { label := "bb1",
     instructions := [{ iid := 1, opcode := "stop", operands := [] }] }]

/-- The state computed by `cfgAnalyze` on `c4Fn`. -/
def c4St : CFGState :=
  { cfgIn := [("bb0", ["bb0"]), ("bb1", ["bb0"])],
    cfgOut := [("bb0", ["bb0", "bb1"]), ("bb1", [])] }

/-- Witness for `c4_cfg_consistency`: the analysis runs on `c4Fn` and the
equivalences hold for the pair (bb0, bb1). -/
theorem c4_witness :
    (c4Fn[1].label ∈ alook c4St.cfgOut c4Fn[0].label ↔
      c4Fn[0].label ∈ alook c4St.cfgIn c4Fn[1].label) ∧
    (c4Fn[0].label ∈ alook c4St.cfgIn c4Fn[1].label ↔
      ∃ i ∈ c4Fn[0].instructions, i.opcode ∈ CFG_ALTERING_INSTRUCTIONS ∧
        c4Fn[1].label ∈ i.labelOperands) :=
  c4_cfg_consistency c4Fn c4St (by decide) (by decide)
    c4Fn[0] c4Fn[1] (by decide) (by decide)

/-! ### C9: the DUP decision of `_generate_evm_for_instruction_r`
(`codegen/dfg.py`, lines 225-234) -/

/-- The emission state of the stack scheduler: the virtual operand stack
(head = top of stack, i.e. depth 0), the per-variable remaining use count
(`target.use_count`, populated by `convert_ir_to_dfg`), and the assembly
emitted so far.  The `StackMap` class itself is not under `src/`; its
stack representation is Modelled from the spec ("the ordered list of
variables currently on the EVM operand stack"). -/
structure SchedState where
  stack : List String
  counts : String → Nat
  asm : List String

/-- `StackMap.get_depth_in`: the depth of the topmost occurrence of the
variable, `none` for NOT_IN_STACK (Modelled from the spec, `StackMap` is
not under `src/`). -/
def depthIn (stack : List String) (v : String) : Option Nat :=
  match stack with
  | [] => none
  | w :: rest => if w = v then some 0 else (depthIn rest v).map (fun d => d + 1)

/-- `StackMap.dup(assembly, depth)`: push a copy of the item at `depth`
and emit the corresponding DUP mnemonic (Modelled from the spec). -/
def stackDup (st : SchedState) (depth : Nat) : Option SchedState :=
  match st.stack.get? depth with
  | none => none
  | some v =>
    some { st with stack := v :: st.stack,
                   asm := st.asm ++ ["DUP" ++ toString (depth + 1)] }

/-- One iteration of the consumed-operand loop in
`_generate_evm_for_instruction_r`: assert `use_count >= ucc`, look the
operand up on the stack, and when `use_count - ucc > 1` emit a DUP and
decrement the use count; otherwise leave the state unchanged (the operand
is consumed in place).  `ucc` is `inst.get_use_count_correction(op)`
(defined in the legacy `ir_basicblock.py`, not under `src/`): the
correction for repeated uses of the operand within this instruction,
taken as an opaque parameter. -/
def dupStep (ucc : String → Nat) (st : SchedState) (v : String) : Option SchedState :=
  if st.counts v < ucc v then none
  else match depthIn st.stack v with
    | none => none
    | some depth =>
      if 1 < st.counts v - ucc v then
        (stackDup st depth).map (fun st2 =>
          { st2 with counts := fun w => if w = v then st.counts v - 1 else st.counts w })
      else some st

/-- The whole `for op in operands` DUP loop. -/
def dupLoop (ucc : String → Nat) : SchedState → List String → Option SchedState
  | st, [] => some st
  | st, v :: vs => (dupStep ucc st v).bind (fun st2 => dupLoop ucc st2 vs)

theorem depthIn_isSome (stack : List String) (v : String) (h : v ∈ stack) :
    ∃ d, depthIn stack v = some d := by
  induction stack with
  | nil => simp at h
  | cons w rest ih =>
    by_cases hw : w = v
    · exact ⟨0, by simp [depthIn, hw]⟩
    · have hv : v ∈ rest := by
        rcases List.mem_cons.1 h with h1 | h1
        · exact absurd h1.symm hw
        · exact h1
      obtain ⟨d, hd⟩ := ih hv
      exact ⟨d + 1, by simp [depthIn, hw, hd]⟩

theorem depthIn_get (stack : List String) (v : String) (d : Nat)
    (h : depthIn stack v = some d) : stack.get? d = some v := by
  induction stack generalizing d with
  | nil => simp [depthIn] at h
  | cons w rest ih =>
    by_cases hw : w = v
    · simp only [depthIn, hw, if_true, Option.some.injEq] at h
      subst h
      simp [hw]
    · simp only [depthIn, hw, if_false, Option.map_eq_some'] at h
      obtain ⟨d2, hd2, rfl⟩ := h
      simpa using ih d2 hd2

/-- C9: when the scheduler emits an instruction, the consumed-operand
loop emits a DUP (and decrements the remaining use count) for exactly
those operands whose corrected remaining use count `use_count - ucc`
exceeds 1; an operand with corrected count at most 1 is consumed in
place: no DUP, no decrement.  Stated for pairwise-distinct consumed
variable operands that are on the stack and satisfy the loop's own
assertion `use_count >= ucc`. -/
theorem c9_dup_exactly_when_needed (ucc counts : String → Nat)
    (stack asm0 : List String) (ops : List String)
    (hnd : ops.Nodup) (hge : ∀ v ∈ ops, ucc v ≤ counts v)
    (hstk : ∀ v ∈ ops, v ∈ stack) :
    ∃ st2, dupLoop ucc ⟨stack, counts, asm0⟩ ops = some st2 ∧
      (∀ v ∈ ops,
        (1 < counts v - ucc v →
          st2.counts v = counts v - 1 ∧ st2.stack.count v = stack.count v + 1) ∧
        (counts v - ucc v ≤ 1 →
          st2.counts v = counts v ∧ st2.stack.count v = stack.count v)) ∧
      st2.asm.length = asm0.length + (ops.filter (fun v => 1 < counts v - ucc v)).length ∧
      (∀ w, w ∉ ops → st2.counts w = counts w ∧ st2.stack.count w = stack.count w) := by
  induction ops generalizing stack counts asm0 with
  | nil =>
    exact ⟨⟨stack, counts, asm0⟩, rfl, by simp, by simp, fun w _ => ⟨rfl, rfl⟩⟩
  | cons v vs ih =>
    have hvnotin : v ∉ vs := (List.nodup_cons.1 hnd).1
    have hndvs : vs.Nodup := (List.nodup_cons.1 hnd).2
    have hgev : ucc v ≤ counts v := hge v (by simp)
    have hstkv : v ∈ stack := hstk v (by simp)
    obtain ⟨d, hd⟩ := depthIn_isSome stack v hstkv
    have hdg : stack.get? d = some v := depthIn_get stack v d hd
    by_cases hneed : 1 < counts v - ucc v
    · -- DUP branch
      have hstep : dupStep ucc ⟨stack, counts, asm0⟩ v =
          some ⟨v :: stack,
                fun w => if w = v then counts v - 1 else counts w,
                asm0 ++ ["DUP" ++ toString (d + 1)]⟩ := by
        simp only [dupStep, stackDup, hd, hdg]
        rw [if_neg (by omega : ¬ (counts v < ucc v)), if_pos hneed]
        rfl
      set counts1 : String → Nat := fun w => if w = v then counts v - 1 else counts w with hc1
      have hge1 : ∀ w ∈ vs, ucc w ≤ counts1 w := by
        intro w hw
        have hwv : w ≠ v := fun hh => hvnotin (hh ▸ hw)
        simp only [hc1, hwv, if_false]
        exact hge w (by simp [hw])
      have hstk1 : ∀ w ∈ vs, w ∈ v :: stack := by
        intro w hw
        exact List.mem_cons.2 (Or.inr (hstk w (by simp [hw])))
      obtain ⟨st2, hrun, hprops, hasm, hframe⟩ :=
        ih counts1 (v :: stack) (asm0 ++ ["DUP" ++ toString (d + 1)]) hndvs hge1 hstk1
      refine ⟨st2, ?_, ?_, ?_, ?_⟩
      · simp only [dupLoop, hstep, Option.some_bind]
        exact hrun
      · intro w hw
        rcases List.mem_cons.1 hw with hwv | hwvs
        · subst hwv
          obtain ⟨hcw, hsw⟩ := hframe w hvnotin
          constructor
          · intro _
            refine ⟨?_, ?_⟩
            · rw [hcw]; simp [hc1]
            · rw [hsw]; simp [List.count_cons]
          · intro hle
            omega
        · have hwv : w ≠ v := fun hh => hvnotin (hh ▸ hwvs)
          obtain ⟨h1, h2⟩ := hprops w hwvs
          have hcw : counts1 w = counts w := by simp [hc1, hwv]
          constructor
          · intro hgt
            obtain ⟨ha, hb⟩ := h1 (by rw [hcw]; exact hgt)
            refine ⟨by rw [ha, hcw], by rw [hb]; simp [List.count_cons, hwv]⟩
          · intro hle
            obtain ⟨ha, hb⟩ := h2 (by rw [hcw]; exact hle)
            refine ⟨by rw [ha, hcw], by rw [hb]; simp [List.count_cons, hwv]⟩
      · rw [hasm]
        have hfeq : vs.filter (fun w => 1 < counts1 w - ucc w)
            = vs.filter (fun w => 1 < counts w - ucc w) := by
          apply List.filter_congr
          intro w hw
          have hwv : w ≠ v := fun hh => hvnotin (hh ▸ hw)
          simp [hc1, hwv]
        rw [hfeq, List.filter_cons_of_pos (by simpa using hneed)]
        simp only [List.length_append, List.length_singleton, List.length_cons,
          List.length_nil]
        omega
      · intro w hw
        have hwv : w ≠ v := fun hh => hw (by simp [hh])
        have hwvs : w ∉ vs := fun hh => hw (by simp [hh])
        obtain ⟨hcw, hsw⟩ := hframe w hwvs
        refine ⟨?_, ?_⟩
        · rw [hcw]; simp [hc1, hwv]
        · rw [hsw]; simp [List.count_cons, hwv]
    · -- consume in place
      have hstep : dupStep ucc ⟨stack, counts, asm0⟩ v = some ⟨stack, counts, asm0⟩ := by
        simp only [dupStep, hd]
        rw [if_neg (by omega), if_neg hneed]
      obtain ⟨st2, hrun, hprops, hasm, hframe⟩ :=
        ih counts stack asm0 hndvs (fun w hw => hge w (by simp [hw]))
          (fun w hw => hstk w (by simp [hw]))
      refine ⟨st2, ?_, ?_, ?_, ?_⟩
      · simp only [dupLoop, hstep, Option.some_bind]
        exact hrun
      · intro w hw
        rcases List.mem_cons.1 hw with hwv | hwvs
        · subst hwv
          obtain ⟨hcw, hsw⟩ := hframe w hvnotin
          exact ⟨fun hgt => absurd hgt hneed, fun _ => ⟨hcw, hsw⟩⟩
        · exact hprops w hwvs
      · rw [hasm]
        simp only [List.filter_cons]
        simp [hneed]
      · intro w hw
        exact hframe w (fun hh => hw (by simp [hh]))

/-- Witness for `c9_dup_exactly_when_needed` with two consumed operands:
`%a` (use count 2, correction 0: still needed, gets a DUP) and `%b`
(use count 1: consumed in place). -/
theorem c9_witness :
    ∃ st2, dupLoop (fun _ => 0)
        ⟨["%a", "%b"], (fun w => if w = "%a" then 2 else 1), []⟩ ["%a", "%b"] = some st2 ∧
      (∀ v ∈ ["%a", "%b"],
        (1 < (if v = "%a" then 2 else 1) - 0 →
          st2.counts v = (if v = "%a" then 2 else 1) - 1 ∧
          st2.stack.count v = ["%a", "%b"].count v + 1) ∧
        ((if v = "%a" then 2 else 1) - 0 ≤ 1 →
          st2.counts v = (if v = "%a" then 2 else 1) ∧
          st2.stack.count v = ["%a", "%b"].count v)) ∧
      st2.asm.length = List.length ([] : List String) +
        (["%a", "%b"].filter (fun v => 1 < (if v = "%a" then 2 else 1) - 0)).length ∧
      (∀ w, w ∉ ["%a", "%b"] →
        st2.counts w = (if w = "%a" then 2 else 1) ∧
        st2.stack.count w = ["%a", "%b"].count w) :=
  c9_dup_exactly_when_needed (fun _ => 0) (fun w => if w = "%a" then 2 else 1)
    ["%a", "%b"] [] ["%a", "%b"] (by decide) (by decide) (by decide)

/-! ### C8: `IRBasicBlock.fix_phi_instructions` and
`IRInstruction.remove_phi_operand` (`basicblock.py`) -/

/-- `IRInstruction.remove_phi_operand`: scan the operand list two slots at
a time from the front and delete the first pair whose first slot equals
the label (`del self.operands[i : i + 2]`, which also handles a trailing
singleton chunk); no-op when the label is not found. -/
def removePhiOperand : List VOp → String → List VOp
  | a :: b :: rest, l => if a = VOp.lbl l then rest else a :: b :: removePhiOperand rest l
  | [a], l => if a = VOp.lbl l then [] else [a]
  | [], _ => []

/-- The label-removal loop of `fix_phi_instructions`.  The source iterates
a generator over `inst.operands` while `remove_phi_operand` mutates that
same list, which is CPython's list-iterator semantics: an internal index
`i` advances by one per step and reads the current list, so a deletion
shifts later elements under the iterator.  `fuel` makes the recursion
structural; the index only grows and the list never grows, so
`ops.length` fuel yields the fixpoint (when fuel runs out the index has
reached the end and the fallback equals the end-of-list result).
Returns the final operand list and whether any stale label was seen
(`needs_sort`). -/
def phiScanFuel (stale : String → Bool) : Nat → List VOp → Nat → (List VOp × Bool)
  | 0, ops, _ => (ops, false)
  | fuel + 1, ops, i =>
    match ops.get? i with
    | none => (ops, false)
    | some (.lbl s) =>
      if stale s then
        let r := phiScanFuel stale fuel (removePhiOperand ops s) (i + 1)
        (r.1, true)
      else phiScanFuel stale fuel ops (i + 1)
    | some _ => phiScanFuel stale fuel ops (i + 1)

/-- The per-instruction body of `fix_phi_instructions`: non-phi
instructions are untouched; a phi's operands go through the removal scan,
then a 2-operand phi degenerates to a `store` of its second operand and a
0-operand phi to a `nop` with no output.  Returns the rewritten
instruction and the `needs_sort` contribution. -/
def fixOnePhi (cfgIn : List String) (inst : VInst) : VInst × Bool :=
  if inst.opcode ≠ "phi" then (inst, false)
  else
    let r := phiScanFuel (fun s => !(cfgIn.contains s)) inst.operands.length inst.operands 0
    let ops2 := r.1
    let inst2 :=
      if ops2.length = 2 then
        -- `[inst.operands[1]]`: on the 2-element list this is `drop 1`
        { inst with opcode := "store", operands := ops2.drop 1 }
      else if ops2.length = 0 then
        { inst with opcode := "nop", output := none, operands := [] }
      else { inst with operands := ops2 }
    (inst2, r.2)

/-- `IRBasicBlock.fix_phi_instructions`.  Python's `list.sort` with key
`inst.opcode != "phi"` is a stable sort by a boolean key, i.e. a stable
partition: the phis in their relative order, then the rest in theirs. -/
def fixPhiInstructions (b : VBlock) : VBlock :=
  let results := b.instructions.map (fixOnePhi b.cfgIn)
  let processed := results.map Prod.fst
  let needsSort := results.any Prod.snd
  { b with instructions :=
      if needsSort then
        processed.filter (fun i => i.opcode == "phi") ++
          processed.filter (fun i => i.opcode != "phi")
      else processed }

/-- The C8 counterexample block: a phi with three incoming pairs, of
which the first two are stale (only `b3` is still a predecessor). -/
def c8Phi : VInst :=
  { iid := 0, opcode := "phi",
    operands := [.lbl "b1", .var "%v1", .lbl "b2", .var "%v2", .lbl "b3", .var "%v3"],
    output := some "%p" }

/-- The terminator of the C8 counterexample block. -/
def c8Jmp : VInst := { iid := 1, opcode := "jmp", operands := [.lbl "next"] }

/-- The C8 counterexample block (`cfg_in` is just the block labelled
`b3`). -/
def c8Block : VBlock :=
  { label := "bb", instructions := [c8Phi, c8Jmp], cfgIn := ["b3"] }

/-- C8 counterexample: after `fix_phi_instructions`, the phi still holds
the stale label `b2` (the removal of the `b1` pair shifted the list under
the live iterator, so the `b2` pair was never examined), although `b2`
is not in `cfg_in` — refuting "every label operand of every remaining phi
instruction in B names a block in cfg_in(B)". -/
theorem c8_counterexample :
    (fixPhiInstructions c8Block).instructions =
      [{ iid := 0, opcode := "phi",
         operands := [.lbl "b2", .var "%v2", .lbl "b3", .var "%v3"],
         output := some "%p" }, c8Jmp] ∧
    "b2" ∈ ({ iid := 0, opcode := "phi",
              operands := [.lbl "b2", .var "%v2", .lbl "b3", .var "%v3"],
              output := some "%p" } : VInst).labelOperands ∧
    "b2" ∉ c8Block.cfgIn := by
  refine ⟨by rfl, by decide, by decide⟩

/-- Whether an operand is a label. -/
def isLblOp : VOp → Bool
  | .lbl _ => true
  | _ => false

/-- Flatten a list of `(label, value)` pairs into a phi operand list
(`(label_1, val_1, label_2, val_2, ...)`). -/
def flattenPairs : List (String × VOp) → List VOp
  | [] => []
  | (l, v) :: rest => .lbl l :: v :: flattenPairs rest

/-- The clean description of the removal loop of `fix_phi_instructions`
on well-formed phi operands: check the pairs left to right; removing a
pair makes the live iterator skip the pair that directly follows it (that
pair is kept unexamined); the flag records whether any pair was removed. -/
def pairScan (stale : String → Bool) : List (String × VOp) → (List (String × VOp) × Bool)
  | [] => ([], false)
  | [p] => if stale p.1 then ([], true) else ([p], false)
  | p :: q :: rest =>
    if stale p.1 then
      let r := pairScan stale rest
      (q :: r.1, true)
    else
      let r := pairScan stale (q :: rest)
      (p :: r.1, r.2)

theorem flattenPairs_append (a b : List (String × VOp)) :
    flattenPairs (a ++ b) = flattenPairs a ++ flattenPairs b := by
  induction a with
  | nil => rfl
  | cons p rest ih =>
    obtain ⟨l, v⟩ := p
    simp [flattenPairs, ih]

theorem flattenPairs_length (a : List (String × VOp)) :
    (flattenPairs a).length = 2 * a.length := by
  induction a with
  | nil => rfl
  | cons p rest ih =>
    obtain ⟨l, v⟩ := p
    simp [flattenPairs, ih]
    omega

theorem phiScanFuel_out_of_range (stale : String → Bool) (f : Nat) (ops : List VOp)
    (i : Nat) (h : ops.length ≤ i) : phiScanFuel stale f ops i = (ops, false) := by
  cases f with
  | zero => rfl
  | succ f2 =>
    simp only [phiScanFuel]
    rw [List.get?_eq_none.2 h]

theorem removePhiOperand_skip (pre : List (String × VOp)) (l : String) (v : VOp)
    (rest : List VOp)
    (hnl : l ∉ pre.map Prod.fst) (hv : ∀ q ∈ pre, isLblOp q.2 = false) :
    removePhiOperand (flattenPairs pre ++ VOp.lbl l :: v :: rest) l
      = flattenPairs pre ++ rest := by
  induction pre with
  | nil =>
    simp [flattenPairs, removePhiOperand]
  | cons p tail ih =>
    obtain ⟨pl, pv⟩ := p
    have hne : pl ≠ l := by
      intro hh
      exact hnl (by simp [hh])
    simp only [flattenPairs, List.cons_append]
    rw [removePhiOperand]
    · rw [if_neg (by simp [hne])]
      congr 1
      congr 1
      exact ih (by intro hh; exact hnl (by simp [hh]))
        (fun q hq => hv q (by simp [hq]))

theorem get?_append_self (A : List VOp) (x : VOp) (L : List VOp) :
    (A ++ x :: L).get? A.length = some x := by
  rw [List.get?_append_right (le_refl _)]
  simp

theorem get?_append_succ (A : List VOp) (x y : VOp) (L : List VOp) :
    (A ++ x :: y :: L).get? (A.length + 1) = some y := by
  rw [List.get?_append_right (by omega)]
  have : A.length + 1 - A.length = 1 := by omega
  rw [this]
  simp

theorem phiScanFuel_step_stale (stale : String → Bool) (f : Nat) (ops : List VOp)
    (i : Nat) (s : String) (h : ops.get? i = some (.lbl s)) (hs : stale s = true) :
    phiScanFuel stale (f + 1) ops i
      = ((phiScanFuel stale f (removePhiOperand ops s) (i + 1)).1, true) := by
  simp only [phiScanFuel, h, hs, if_true]

theorem phiScanFuel_step_keep (stale : String → Bool) (f : Nat) (ops : List VOp)
    (i : Nat) (s : String) (h : ops.get? i = some (.lbl s)) (hs : stale s = false) :
    phiScanFuel stale (f + 1) ops i = phiScanFuel stale f ops (i + 1) := by
  simp only [phiScanFuel, h, hs, Bool.false_eq_true, if_false]

theorem phiScanFuel_step_lit (stale : String → Bool) (f : Nat) (ops : List VOp)
    (i : Nat) (n : Int) (h : ops.get? i = some (.lit n)) :
    phiScanFuel stale (f + 1) ops i = phiScanFuel stale f ops (i + 1) := by
  simp only [phiScanFuel, h]

theorem phiScanFuel_step_var (stale : String → Bool) (f : Nat) (ops : List VOp)
    (i : Nat) (v : String) (h : ops.get? i = some (.var v)) :
    phiScanFuel stale (f + 1) ops i = phiScanFuel stale f ops (i + 1) := by
  simp only [phiScanFuel, h]

theorem phiScanFuel_step_nonlbl (stale : String → Bool) (f : Nat) (ops : List VOp)
    (i : Nat) (x : VOp) (h : ops.get? i = some x) (hx : isLblOp x = false) :
    phiScanFuel stale (f + 1) ops i = phiScanFuel stale f ops (i + 1) := by
  cases x with
  | lbl s => simp [isLblOp] at hx
  | lit n => exact phiScanFuel_step_lit stale f ops i n h
  | var v => exact phiScanFuel_step_var stale f ops i v h

theorem pairScan_one_stale (stale : String → Bool) (p : String × VOp)
    (h : stale p.1 = true) : pairScan stale [p] = ([], true) := by
  simp [pairScan, h]

theorem pairScan_one_keep (stale : String → Bool) (p : String × VOp)
    (h : stale p.1 = false) : pairScan stale [p] = ([p], false) := by
  simp [pairScan, h]

theorem pairScan_two_stale (stale : String → Bool) (p q : String × VOp)
    (rest : List (String × VOp)) (h : stale p.1 = true) :
    pairScan stale (p :: q :: rest) = (q :: (pairScan stale rest).1, true) := by
  simp [pairScan, h]

theorem pairScan_two_keep (stale : String → Bool) (p q : String × VOp)
    (rest : List (String × VOp)) (h : stale p.1 = false) :
    pairScan stale (p :: q :: rest)
      = (p :: (pairScan stale (q :: rest)).1, (pairScan stale (q :: rest)).2) := by
  simp [pairScan, h]

theorem nodup_middle_not_mem (A : List String) (x : String) (B : List String)
    (h : (A ++ x :: B).Nodup) : x ∉ A := by
  intro hx
  rw [List.nodup_append] at h
  exact h.2.2 hx (by simp)

/-- The faithful removal scan on a well-formed phi operand list (pairs of
a label and a non-label value, labels pairwise distinct) computes exactly
the skip-one `pairScan`, with the same `needs_sort` flag. -/
theorem phiScan_eq_pairScan (stale : String → Bool) (ps : List (String × VOp)) :
    ∀ (pre : List (String × VOp)) (fuel : Nat),
      ((pre ++ ps).map Prod.fst).Nodup →
      (∀ q ∈ pre ++ ps, isLblOp q.2 = false) →
      (flattenPairs ps).length ≤ fuel →
      phiScanFuel stale fuel (flattenPairs (pre ++ ps)) (flattenPairs pre).length
        = (flattenPairs (pre ++ (pairScan stale ps).1), (pairScan stale ps).2) := by
  refine pairScan.induct stale
    (fun l => ∀ (pre : List (String × VOp)) (fuel : Nat),
      ((pre ++ l).map Prod.fst).Nodup →
      (∀ q ∈ pre ++ l, isLblOp q.2 = false) →
      (flattenPairs l).length ≤ fuel →
      phiScanFuel stale fuel (flattenPairs (pre ++ l)) (flattenPairs pre).length
        = (flattenPairs (pre ++ (pairScan stale l).1), (pairScan stale l).2))
    ?_ ?_ ?_ ?_ ?_ ps
  · -- l = []
    intro pre fuel hnd hv hf
    simp only [pairScan, List.append_nil]
    exact phiScanFuel_out_of_range stale fuel _ _ (le_refl _)
  · -- l = [p], stale
    intro p hstale0 pre fuel hnd hv hf
    obtain ⟨pl, pv⟩ := p
    have hstale : stale pl = true := hstale0
    rw [flattenPairs_length] at hf
    simp only [List.length_cons, List.length_nil] at hf
    obtain ⟨f, rfl⟩ : ∃ f, fuel = f + 1 := ⟨fuel - 1, by omega⟩
    have hops : flattenPairs (pre ++ [(pl, pv)])
        = flattenPairs pre ++ VOp.lbl pl :: pv :: [] := by
      rw [flattenPairs_append]; rfl
    have hget : (flattenPairs (pre ++ [(pl, pv)])).get? (flattenPairs pre).length
        = some (VOp.lbl pl) := by
      rw [hops]; exact get?_append_self _ _ _
    rw [phiScanFuel_step_stale stale f _ _ pl hget hstale]
    have hnl : pl ∉ pre.map Prod.fst := by
      apply nodup_middle_not_mem (pre.map Prod.fst) pl []
      simpa using hnd
    have hrem : removePhiOperand (flattenPairs (pre ++ [(pl, pv)])) pl
        = flattenPairs pre := by
      rw [hops]
      have := removePhiOperand_skip pre pl pv [] hnl
        (fun q hq => hv q (by simp [hq]))
      simpa using this
    rw [hrem, phiScanFuel_out_of_range stale f _ _ (Nat.le_succ _),
      pairScan_one_stale stale _ hstale]
    simp
  · -- l = [p], kept
    intro p hstale0 pre fuel hnd hv hf
    obtain ⟨pl, pv⟩ := p
    have hstale : stale pl = false := by simpa using hstale0
    rw [flattenPairs_length] at hf
    simp only [List.length_cons, List.length_nil] at hf
    obtain ⟨f2, rfl⟩ : ∃ f2, fuel = f2 + 2 := ⟨fuel - 2, by omega⟩
    have hops : flattenPairs (pre ++ [(pl, pv)])
        = flattenPairs pre ++ VOp.lbl pl :: pv :: [] := by
      rw [flattenPairs_append]; rfl
    have hget : (flattenPairs (pre ++ [(pl, pv)])).get? (flattenPairs pre).length
        = some (VOp.lbl pl) := by
      rw [hops]; exact get?_append_self _ _ _
    have hget2 : (flattenPairs (pre ++ [(pl, pv)])).get? ((flattenPairs pre).length + 1)
        = some pv := by
      rw [hops]; exact get?_append_succ _ _ _ _
    have hpv : isLblOp pv = false := by simpa using hv (pl, pv) (by simp)
    show phiScanFuel stale (f2 + 1 + 1) _ _ = _
    rw [phiScanFuel_step_keep stale (f2 + 1) _ _ pl hget hstale,
      phiScanFuel_step_nonlbl stale f2 _ _ pv hget2 hpv,
      phiScanFuel_out_of_range stale f2 _ _ (by rw [hops]; simp),
      pairScan_one_keep stale _ hstale]
  · -- l = p :: q :: rest, stale: q is skipped unexamined
    intro p q rest hstale0 ih pre fuel hnd hv hf
    obtain ⟨pl, pv⟩ := p
    obtain ⟨ql, qv⟩ := q
    have hstale : stale pl = true := hstale0
    rw [flattenPairs_length] at hf
    simp only [List.length_cons] at hf
    obtain ⟨f2, rfl⟩ : ∃ f2, fuel = f2 + 2 := ⟨fuel - 2, by omega⟩
    have hops : flattenPairs (pre ++ (pl, pv) :: (ql, qv) :: rest)
        = flattenPairs pre ++ VOp.lbl pl :: pv ::
            (VOp.lbl ql :: qv :: flattenPairs rest) := by
      rw [flattenPairs_append]; rfl
    have hget : (flattenPairs (pre ++ (pl, pv) :: (ql, qv) :: rest)).get?
        (flattenPairs pre).length = some (VOp.lbl pl) := by
      rw [hops]; exact get?_append_self _ _ _
    show phiScanFuel stale (f2 + 1 + 1) _ _ = _
    rw [phiScanFuel_step_stale stale (f2 + 1) _ _ pl hget hstale]
    have hnl : pl ∉ pre.map Prod.fst := by
      apply nodup_middle_not_mem (pre.map Prod.fst) pl _
      simpa using hnd
    have hrem : removePhiOperand (flattenPairs (pre ++ (pl, pv) :: (ql, qv) :: rest)) pl
        = flattenPairs pre ++ VOp.lbl ql :: qv :: flattenPairs rest := by
      rw [hops]
      exact removePhiOperand_skip pre pl pv _ hnl
        (fun r hr => hv r (by simp [hr]))
    rw [hrem]
    have hqv : isLblOp qv = false := by simpa using hv (ql, qv) (by simp)
    have hget2 : (flattenPairs pre ++ VOp.lbl ql :: qv :: flattenPairs rest).get?
        ((flattenPairs pre).length + 1) = some qv := get?_append_succ _ _ _ _
    rw [phiScanFuel_step_nonlbl stale f2 _ _ qv hget2 hqv]
    have heq1 : flattenPairs pre ++ VOp.lbl ql :: qv :: flattenPairs rest
        = flattenPairs ((pre ++ [(ql, qv)]) ++ rest) := by
      rw [flattenPairs_append, flattenPairs_append, List.append_assoc]
      rfl
    have heq2 : (flattenPairs pre).length + 1 + 1
        = (flattenPairs (pre ++ [(ql, qv)])).length := by
      rw [flattenPairs_append]
      simp [flattenPairs]
    rw [heq1, heq2]
    have hsub : List.Sublist (((pre ++ [(ql, qv)]) ++ rest).map Prod.fst)
        ((pre ++ (pl, pv) :: (ql, qv) :: rest).map Prod.fst) := by
      apply List.Sublist.map
      rw [List.append_assoc]
      simp only [List.singleton_append]
      exact List.Sublist.append_left (List.sublist_cons_self _ _) pre
    have hnd2 : (((pre ++ [(ql, qv)]) ++ rest).map Prod.fst).Nodup :=
      List.Nodup.sublist hsub hnd
    have hv2 : ∀ r ∈ (pre ++ [(ql, qv)]) ++ rest, isLblOp r.2 = false := by
      intro r hr
      apply hv
      rw [List.append_assoc] at hr
      simp only [List.singleton_append] at hr
      simp only [List.mem_append, List.mem_cons] at hr ⊢
      tauto
    have hf2 : (flattenPairs rest).length ≤ f2 := by
      rw [flattenPairs_length]
      omega
    rw [ih (pre ++ [(ql, qv)]) f2 hnd2 hv2 hf2,
      pairScan_two_stale stale _ _ rest hstale]
    simp only [List.append_assoc, List.singleton_append]
  · -- l = p :: q :: rest, kept
    intro p q rest hstale0 ih pre fuel hnd hv hf
    obtain ⟨pl, pv⟩ := p
    obtain ⟨ql, qv⟩ := q
    have hstale : stale pl = false := by simpa using hstale0
    rw [flattenPairs_length] at hf
    simp only [List.length_cons] at hf
    obtain ⟨f2, rfl⟩ : ∃ f2, fuel = f2 + 2 := ⟨fuel - 2, by omega⟩
    have hops : flattenPairs (pre ++ (pl, pv) :: (ql, qv) :: rest)
        = flattenPairs pre ++ VOp.lbl pl :: pv ::
            (VOp.lbl ql :: qv :: flattenPairs rest) := by
      rw [flattenPairs_append]; rfl
    have hget : (flattenPairs (pre ++ (pl, pv) :: (ql, qv) :: rest)).get?
        (flattenPairs pre).length = some (VOp.lbl pl) := by
      rw [hops]; exact get?_append_self _ _ _
    have hget2 : (flattenPairs (pre ++ (pl, pv) :: (ql, qv) :: rest)).get?
        ((flattenPairs pre).length + 1) = some pv := by
      rw [hops]; exact get?_append_succ _ _ _ _
    have hpv : isLblOp pv = false := by simpa using hv (pl, pv) (by simp)
    show phiScanFuel stale (f2 + 1 + 1) _ _ = _
    rw [phiScanFuel_step_keep stale (f2 + 1) _ _ pl hget hstale,
      phiScanFuel_step_nonlbl stale f2 _ _ pv hget2 hpv]
    have heq1 : flattenPairs (pre ++ (pl, pv) :: (ql, qv) :: rest)
        = flattenPairs ((pre ++ [(pl, pv)]) ++ ((ql, qv) :: rest)) := by
      rw [List.append_assoc]
      rfl
    have heq2 : (flattenPairs pre).length + 1 + 1
        = (flattenPairs (pre ++ [(pl, pv)])).length := by
      rw [flattenPairs_append]
      simp [flattenPairs]
    rw [heq1, heq2]
    have hnd2 : (((pre ++ [(pl, pv)]) ++ ((ql, qv) :: rest)).map Prod.fst).Nodup := by
      rw [List.append_assoc]
      simpa using hnd
    have hv2 : ∀ r ∈ (pre ++ [(pl, pv)]) ++ ((ql, qv) :: rest), isLblOp r.2 = false := by
      intro r hr
      apply hv
      rw [List.append_assoc] at hr
      simpa using hr
    have hf2 : (flattenPairs ((ql, qv) :: rest)).length ≤ f2 := by
      rw [flattenPairs_length]
      simp only [List.length_cons]
      omega
    rw [ih (pre ++ [(pl, pv)]) f2 hnd2 hv2 hf2,
      pairScan_two_keep stale _ _ rest hstale]
    simp only [List.append_assoc, List.singleton_append]

/-- The staleness test of `fix_phi_instructions`: a label is stale when it
is not among the labels of the block's `cfg_in` predecessors. -/
def staleOf (b : VBlock) : String → Bool := fun s => !(b.cfgIn.contains s)

/-- The clean per-phi result: the kept pairs re-flattened, with the
2-operand-to-`store` and 0-operand-to-`nop` degenerations. -/
def fixOnePhiSpec (inst : VInst) (kept : List (String × VOp)) (flag : Bool) :
    VInst × Bool :=
  (match kept with
   | [q] => { inst with opcode := "store", operands := [q.2] }
   | [] => { inst with opcode := "nop", output := none, operands := [] }
   | _ => { inst with operands := flattenPairs kept }, flag)

theorem pairScan_sublist (stale : String → Bool) (ps : List (String × VOp)) :
    List.Sublist (pairScan stale ps).1 ps := by
  refine pairScan.induct stale (fun l => List.Sublist (pairScan stale l).1 l)
    ?_ ?_ ?_ ?_ ?_ ps
  · simp [pairScan]
  · intro p h
    simp [pairScan_one_stale stale p h]
  · intro p h
    simp only [Bool.not_eq_true] at h
    simp [pairScan_one_keep stale p h]
  · intro p q rest h ih
    rw [pairScan_two_stale stale p q rest h]
    exact List.Sublist.cons p (List.Sublist.cons₂ q ih)
  · intro p q rest h ih
    simp only [Bool.not_eq_true] at h
    rw [pairScan_two_keep stale p q rest h]
    exact List.Sublist.cons₂ p ih

theorem pairScan_dropped_stale (stale : String → Bool) (ps : List (String × VOp)) :
    ∀ p ∈ ps, p ∉ (pairScan stale ps).1 → stale p.1 = true := by
  refine pairScan.induct stale
    (fun l => ∀ p ∈ l, p ∉ (pairScan stale l).1 → stale p.1 = true)
    ?_ ?_ ?_ ?_ ?_ ps
  · simp
  · intro p h x hx _
    simp only [List.mem_singleton] at hx
    subst hx
    exact h
  · intro p h x hx hnx
    simp only [Bool.not_eq_true] at h
    rw [pairScan_one_keep stale p h] at hnx
    simp only [List.mem_singleton] at hx
    exact absurd (hx ▸ List.mem_singleton_self x) hnx
  · intro p q rest h ih x hx hnx
    rw [pairScan_two_stale stale p q rest h] at hnx
    simp only [List.mem_cons] at hx hnx
    push_neg at hnx
    rcases hx with rfl | rfl | hx
    · exact h
    · exact absurd rfl hnx.1
    · exact ih x hx hnx.2
  · intro p q rest h ih x hx hnx
    simp only [Bool.not_eq_true] at h
    rw [pairScan_two_keep stale p q rest h] at hnx
    simp only [List.mem_cons] at hx hnx
    push_neg at hnx
    rcases hx with rfl | hx
    · exact absurd rfl hnx.1
    · exact ih x (by simpa using hx) hnx.2

/-- `fixOnePhi` on a well-formed phi computes the `pairScan` description. -/
theorem fixOnePhi_phi_spec (cfgIn : List String) (inst : VInst)
    (ps : List (String × VOp)) (hop : inst.opcode = "phi")
    (hops : inst.operands = flattenPairs ps) (hnd : (ps.map Prod.fst).Nodup)
    (hv : ∀ p ∈ ps, isLblOp p.2 = false) :
    fixOnePhi cfgIn inst
      = fixOnePhiSpec inst (pairScan (fun s => !(cfgIn.contains s)) ps).1
          (pairScan (fun s => !(cfgIn.contains s)) ps).2 := by
  set stale : String → Bool := fun s => !(cfgIn.contains s) with hstale
  have hscan : phiScanFuel stale inst.operands.length inst.operands 0
      = (flattenPairs (pairScan stale ps).1, (pairScan stale ps).2) := by
    have := phiScan_eq_pairScan stale ps [] inst.operands.length
      (by simpa using hnd) (by simpa using hv) (by rw [hops])
    simpa [hops] using this
  unfold fixOnePhi
  rw [if_neg (by simp [hop])]
  simp only [hscan]
  cases hkept : (pairScan stale ps).1 with
  | nil =>
    simp [fixOnePhiSpec, flattenPairs]
  | cons k0 ktail =>
    cases ktail with
    | nil =>
      obtain ⟨kl, kv⟩ := k0
      simp [fixOnePhiSpec, flattenPairs]
    | cons k1 krest =>
      obtain ⟨al, av⟩ := k0
      obtain ⟨bl, bv⟩ := k1
      have hlen : (flattenPairs ((al, av) :: (bl, bv) :: krest)).length = 4 + 2 * krest.length := by
        rw [flattenPairs_length]
        simp only [List.length_cons]
        omega
      rw [if_neg (by omega), if_neg (by omega)]
      simp [fixOnePhiSpec]

/-- C8 (amended): after `fix_phi_instructions(B)`: (a) each phi with
well-formed operands (alternating label/value pairs, distinct labels,
non-label values) is rewritten according to the skip-one `pairScan`: the
kept pairs are a subsequence of the original ones, every dropped pair's
label was stale (not in `cfg_in(B)`) — but a stale pair directly
following a dropped pair survives unexamined, so remaining label
operands need not all name `cfg_in(B)` blocks; a phi left with exactly
one pair becomes a `store` of that pair's value (same output), and a phi
left with no pairs becomes a `nop` with no output; (b) non-phi
instructions are rewritten by nothing; (c) the resulting instruction
list is a permutation of the rewritten instructions, equal to them when
no pair was removed; and (d) when some pair was removed the list is
stably re-sorted so that all phis precede all non-phis. -/
theorem c8_amended (b : VBlock) :
    (∀ inst ∈ b.instructions, inst.opcode = "phi" →
      ∀ ps, inst.operands = flattenPairs ps → (ps.map Prod.fst).Nodup →
        (∀ p ∈ ps, isLblOp p.2 = false) →
        fixOnePhi b.cfgIn inst
            = fixOnePhiSpec inst (pairScan (staleOf b) ps).1 (pairScan (staleOf b) ps).2 ∧
        List.Sublist (pairScan (staleOf b) ps).1 ps ∧
        (∀ p ∈ ps, p ∉ (pairScan (staleOf b) ps).1 → b.cfgIn.contains p.1 = false)) ∧
    (∀ inst ∈ b.instructions, inst.opcode ≠ "phi" →
      fixOnePhi b.cfgIn inst = (inst, false)) ∧
    (fixPhiInstructions b).instructions.Perm
      (b.instructions.map (fun i => (fixOnePhi b.cfgIn i).1)) ∧
    ((b.instructions.map (fixOnePhi b.cfgIn)).any Prod.snd = false →
      (fixPhiInstructions b).instructions
        = b.instructions.map (fun i => (fixOnePhi b.cfgIn i).1)) ∧
    ((b.instructions.map (fixOnePhi b.cfgIn)).any Prod.snd = true →
      ∃ n, ((fixPhiInstructions b).instructions.take n).all
              (fun i => i.opcode == "phi")
        ∧ ((fixPhiInstructions b).instructions.drop n).all
              (fun i => i.opcode != "phi")) := by
  refine ⟨?_, ?_, ?_, ?_, ?_⟩
  · intro inst _ hop ps hops hnd hv
    refine ⟨?_, pairScan_sublist _ ps, ?_⟩
    · exact fixOnePhi_phi_spec b.cfgIn inst ps hop hops hnd hv
    · intro p hp hnp
      have := pairScan_dropped_stale (staleOf b) ps p hp hnp
      simpa [staleOf] using this
  · intro inst _ hop
    unfold fixOnePhi
    rw [if_pos hop]
  · unfold fixPhiInstructions
    by_cases hany : (b.instructions.map (fixOnePhi b.cfgIn)).any Prod.snd
    · simp only [hany, if_true]
      have hperm := List.filter_append_perm (fun i : VInst => i.opcode == "phi")
        ((b.instructions.map (fixOnePhi b.cfgIn)).map Prod.fst)
      have hbne : (fun i : VInst => i.opcode != "phi")
          = (fun i : VInst => !(i.opcode == "phi")) := rfl
      rw [hbne]
      simpa [List.map_map, Function.comp] using hperm
    · simp only [hany, Bool.false_eq_true, if_false]
      rw [List.map_map]
      exact List.Perm.refl _
  · intro hfalse
    unfold fixPhiInstructions
    simp only [hfalse, Bool.false_eq_true, if_false]
    rw [List.map_map]
    rfl
  · intro htrue
    unfold fixPhiInstructions
    simp only [htrue, if_true]
    refine ⟨(((b.instructions.map (fixOnePhi b.cfgIn)).map Prod.fst).filter
      (fun i => i.opcode == "phi")).length, ?_, ?_⟩
    · rw [List.take_left]
      rw [List.all_eq_true]
      intro i hi
      exact (List.mem_filter.1 hi).2
    · rw [List.drop_left]
      rw [List.all_eq_true]
      intro i hi
      have := (List.mem_filter.1 hi).2
      simpa using this

/-- The pairs of the C8 phi. -/
def c8Pairs : List (String × VOp) :=
  [("b1", VOp.var "%v1"), ("b2", VOp.var "%v2"), ("b3", VOp.var "%v3")]

/-- Witness for `c8_amended` at the concrete block `c8Block`, phi `c8Phi`
and its pair list. -/
theorem c8_amended_witness :
    fixOnePhi c8Block.cfgIn c8Phi
        = fixOnePhiSpec c8Phi (pairScan (staleOf c8Block) c8Pairs).1
            (pairScan (staleOf c8Block) c8Pairs).2 ∧
    List.Sublist (pairScan (staleOf c8Block) c8Pairs).1 c8Pairs ∧
    (∀ p ∈ c8Pairs, p ∉ (pairScan (staleOf c8Block) c8Pairs).1 →
      c8Block.cfgIn.contains p.1 = false) :=
  (c8_amended c8Block).1 c8Phi (by decide) (by decide) c8Pairs (by decide)
    (by decide) (by decide)

/-! ### C5: `Mem2Var._process_alloca_var` (`passes/mem2var.py`) -/

/-- All instructions of a function, block order then program order. -/
def allInsts (fn : List VBlock) : List VInst := (fn.map VBlock.instructions).flatten

/-- Find the instruction object with the given identity (Python holds the
object itself; we locate it by its identity). -/
def lookupInst : List VBlock → Nat → Option VInst
  | [], _ => none
  | bb :: rest, uid =>
    match bb.instructions.find? (fun i => i.iid == uid) with
    | some i => some i
    | none => lookupInst rest uid

/-- Mutate the instruction object with identity `uid` in place (Python
mutates the object; identities are unique, so rewriting every occurrence
is the same thing). -/
def updateInst (fn : List VBlock) (uid : Nat) (f : VInst → VInst) : List VBlock :=
  fn.map (fun bb =>
    { bb with instructions := bb.instructions.map (fun i => if i.iid = uid then f i else i) })

/-- `bb.insert_instruction(new, bb.instructions.index(inst))`: insert
`newInst` directly before the instruction with identity `uid` (its first
occurrence; `list.index` compares by identity).  Blocks that do not
contain `uid` are untouched (in the source only `inst.parent` is
changed). -/
def insertBeforeId (fn : List VBlock) (uid : Nat) (newInst : VInst) : List VBlock :=
  fn.map (fun bb =>
    match bb.instructions.findIdx? (fun i => i.iid == uid) with
    | none => bb
    | some idx =>
      { bb with instructions :=
          bb.instructions.take idx ++ newInst :: bb.instructions.drop idx })

/-- One iteration of the promotion loop in `_process_alloca_var`.  The
fresh pointer variable comes from `self.ctx.get_next_variable()`
(`IRFunction` is not under `src/`; the standard fresh-variable counter is
modelled as a numeric counter producing `%<n>`); the inserted
instruction's object identity is modelled as `1000000 + ctr`, disjoint
from the pre-existing identities by hypothesis in the theorems. -/
def mem2varTransformUse (varName : String) (st : List VBlock × Nat) (uid : Nat) :
    List VBlock × Nat :=
  let fn := st.1
  let ctr := st.2
  match lookupInst fn uid with
  | none => st
  | some inst =>
    if inst.opcode = "mstore" then
      (updateInst fn uid (fun i =>
        { i with opcode := "store", output := some (mkVarName varName),
                 operands := i.operands.take 1 }), ctr)
    else if inst.opcode = "mload" then
      (updateInst fn uid (fun i =>
        { i with opcode := "store", operands := [VOp.var (mkVarName varName)] }), ctr)
    else if inst.opcode = "return" then
      match inst.operands.get? 1 with
      | none => st
      | some ptr =>
        let newVar := "%" ++ toString ctr
        let mst : VInst :=
          { iid := 1000000 + ctr, opcode := "mstore",
            operands := [VOp.var (mkVarName varName), ptr],
            output := some newVar }
        let fn2 := insertBeforeId fn uid mst
        (updateInst fn2 uid (fun i =>
          { i with operands := i.operands.set 1 (VOp.var newVar) }), ctr + 1)
    else st

/-- `Mem2Var._process_alloca_var`: when every use of the alloca output is
an `mload`, or every use is an `mstore`, return with no change; when
every use is one of `mstore`/`mload`/`return`, rewrite each use; any
other mix of uses leaves the function unchanged.  `uses` is
`dfg.get_uses(var)` (the DFG analysis is not under `src/`; the use set is
taken as an input, as instruction identities in order). -/
def mem2varProcessAllocaVar (fn : List VBlock) (uses : List Nat) (varName : String)
    (ctr : Nat) : List VBlock × Nat :=
  let useInsts := uses.filterMap (lookupInst fn)
  if useInsts.all (fun i => i.opcode == "mload") then (fn, ctr)
  else if useInsts.all (fun i => i.opcode == "mstore") then (fn, ctr)
  else if useInsts.all
      (fun i => i.opcode == "mstore" || i.opcode == "mload" || i.opcode == "return") then
    uses.foldl (mem2varTransformUse varName) (fn, ctr)
  else (fn, ctr)

/-- The C5 counterexample function: an alloca whose only use is a single
`mload`. -/
def c5Fn : List VBlock :=
  [{ label := "bb0",
     instructions :=
       [{ iid := 0, opcode := "alloca", operands := [], output := some "%a" },
        { iid := 1, opcode := "mload", operands := [.var "%a"], output := some "%x" },
        { iid := 2, opcode := "stop", operands := [] }] }]

/-- The single `mload` use of the C5 counterexample. -/
def c5Load : VInst :=
  { iid := 1, opcode := "mload", operands := [.var "%a"], output := some "%x" }

/-- C5 counterexample: the alloca's only use is an `mload` — an opcode in
the set the claim requires — yet `_process_alloca_var` takes the
`all mload` early return and promotes nothing: the function is returned
unchanged and the `mload` is not rewritten to a `store` of the promoted
register. -/
theorem c5_counterexample :
    lookupInst c5Fn 1 = some c5Load ∧
    (c5Load.opcode = "mload" ∨ c5Load.opcode = "mstore" ∨ c5Load.opcode = "return") ∧
    mem2varProcessAllocaVar c5Fn [1] "addr%a_0" 0 = (c5Fn, 0) ∧
    c5Load.opcode ≠ "store" := by
  refine ⟨by rfl, Or.inl rfl, by rfl, by decide⟩

/-- Instructions `a` and `b` sit directly next to each other (in this
order) in some block of the function. -/
def adjacentIn (fn : List VBlock) (a b : VInst) : Prop :=
  ∃ bb ∈ fn, ∃ j, bb.instructions.get? j = some a ∧ bb.instructions.get? (j + 1) = some b

theorem find?_iid_map (l : List VInst) (g : VInst → VInst)
    (hg : ∀ i, (g i).iid = i.iid) (x : Nat) :
    (l.map g).find? (fun i => i.iid == x) = (l.find? (fun i => i.iid == x)).map g := by
  rw [List.find?_map]
  have : ((fun i : VInst => i.iid == x) ∘ g) = (fun i : VInst => i.iid == x) := by
    funext i
    simp [Function.comp, hg]
  rw [this]

theorem lookupInst_iid (fn : List VBlock) (x : Nat) (i : VInst)
    (h : lookupInst fn x = some i) : i.iid = x := by
  induction fn with
  | nil => simp [lookupInst] at h
  | cons bb rest ih =>
    simp only [lookupInst] at h
    cases hf : bb.instructions.find? (fun i => i.iid == x) with
    | some j =>
      rw [hf] at h
      have := List.find?_some hf
      simp only [Option.some.injEq] at h
      subst h
      simpa using this
    | none =>
      rw [hf] at h
      exact ih h

theorem lookupInst_mem (fn : List VBlock) (x : Nat) (i : VInst)
    (h : lookupInst fn x = some i) : i ∈ allInsts fn := by
  induction fn with
  | nil => simp [lookupInst] at h
  | cons bb rest ih =>
    simp only [lookupInst] at h
    cases hf : bb.instructions.find? (fun i => i.iid == x) with
    | some j =>
      rw [hf] at h
      simp only [Option.some.injEq] at h
      subst h
      have := List.mem_of_find?_eq_some hf
      simp [allInsts, this]
    | none =>
      rw [hf] at h
      have := ih h
      simp [allInsts] at this ⊢
      tauto

theorem lookupInst_update (fn : List VBlock) (uid : Nat) (f : VInst → VInst)
    (hf : ∀ i, (f i).iid = i.iid) (x : Nat) :
    lookupInst (updateInst fn uid f) x
      = (lookupInst fn x).map (fun i => if i.iid = uid then f i else i) := by
  induction fn with
  | nil => rfl
  | cons bb rest ih =>
    simp only [updateInst, List.map_cons, lookupInst]
    have hg : ∀ i, ((fun i => if i.iid = uid then f i else i) i).iid = i.iid := by
      intro i
      by_cases h : i.iid = uid <;> simp [h, hf]
    rw [find?_iid_map bb.instructions _ hg x]
    cases hfind : bb.instructions.find? (fun i => i.iid == x) with
    | some j => simp
    | none =>
      simp only [Option.map_none']
      simpa [updateInst] using ih

theorem find?_append_own (A B : List VInst) (p : VInst → Bool) :
    (A ++ B).find? p = match A.find? p with
      | some x => some x
      | none => B.find? p := by
  induction A with
  | nil => simp
  | cons a rest ih =>
    by_cases h : p a
    · simp [List.find?_cons, h]
    · simp only [List.cons_append, List.find?_cons, h, Bool.false_eq_true, if_false]
      exact ih

theorem findIdx?_spec (l : List VInst) (p : VInst → Bool) (idx : Nat)
    (h : l.findIdx? p = some idx) :
    idx ≤ l.length ∧ ∃ e, l.get? idx = some e ∧ p e = true := by
  induction l generalizing idx with
  | nil => simp at h
  | cons a rest ih =>
    rw [List.findIdx?_cons] at h
    by_cases hp : p a
    · simp only [hp, if_true, Option.some.injEq] at h
      subst h
      exact ⟨by simp, a, rfl, hp⟩
    · simp only [hp, Bool.false_eq_true, if_false, List.findIdx?_succ,
        Option.map_eq_some'] at h
      obtain ⟨i2, hi2, rfl⟩ := h
      obtain ⟨hle, e, he, hpe⟩ := ih i2 hi2
      exact ⟨by simpa using hle, e, by simpa using he, hpe⟩

theorem find?_of_findIdx? (l : List VInst) (p : VInst → Bool) :
    ∀ e, l.find? p = some e → ∃ idx, l.findIdx? p = some idx ∧ l.get? idx = some e := by
  induction l with
  | nil => simp
  | cons a rest ih =>
    intro e he
    by_cases hp : p a
    · simp only [List.find?_cons, hp, if_true, Option.some.injEq] at he
      subst he
      exact ⟨0, by simp [List.findIdx?_cons, hp], rfl⟩
    · simp only [List.find?_cons, hp, Bool.false_eq_true, if_false] at he
      obtain ⟨idx, hidx, hget⟩ := ih e he
      refine ⟨idx + 1, ?_, by simpa using hget⟩
      rw [List.findIdx?_cons]
      simp [hp, List.findIdx?_succ, hidx]

theorem get?_insertAt (l : List VInst) (idx : Nat) (new : VInst) (hidx : idx ≤ l.length)
    (p : Nat) :
    (l.take idx ++ new :: l.drop idx).get? p
      = if p < idx then l.get? p else if p = idx then some new else l.get? (p - 1) := by
  have hlen : (l.take idx).length = idx := by
    rw [List.length_take]
    omega
  by_cases h1 : p < idx
  · rw [if_pos h1, List.get?_append (by omega)]
    exact List.get?_take h1
  · rw [if_neg h1]
    rw [List.get?_append_right (by omega)]
    by_cases h2 : p = idx
    · subst h2
      rw [if_pos rfl, hlen]
      simp
    · rw [if_neg h2, hlen]
      have : p - idx = (p - idx - 1) + 1 := by omega
      rw [this]
      simp only [List.get?_cons_succ]
      rw [List.get?_drop]
      congr 1
      omega

theorem lookupInst_insert (fn : List VBlock) (uid : Nat) (new : VInst) (x : Nat)
    (hnew : new.iid ≠ x) :
    lookupInst (insertBeforeId fn uid new) x = lookupInst fn x := by
  induction fn with
  | nil => rfl
  | cons bb rest ih =>
    simp only [insertBeforeId, List.map_cons, lookupInst]
    cases hfi : bb.instructions.findIdx? (fun i => i.iid == uid) with
    | none =>
      simp only [hfi]
      cases hf : bb.instructions.find? (fun i => i.iid == x) with
      | some j => simp
      | none => simpa [insertBeforeId] using ih
    | some idx =>
      simp only [hfi]
      have hres : (bb.instructions.take idx ++ new :: bb.instructions.drop idx).find?
          (fun i => i.iid == x) = bb.instructions.find? (fun i => i.iid == x) := by
        have hTD : bb.instructions.take idx ++ bb.instructions.drop idx = bb.instructions :=
          List.take_append_drop idx bb.instructions
        have hbne : (new.iid == x) = false := by simpa using hnew
        rw [find?_append_own]
        conv_rhs => rw [← hTD]
        rw [find?_append_own]
        cases hf : (bb.instructions.take idx).find? (fun i => i.iid == x) with
        | some j => simp
        | none =>
          simp only
          rw [List.find?_cons]
          simp [hbne]
      rw [hres]
      cases hf : bb.instructions.find? (fun i => i.iid == x) with
      | some j => simp
      | none => simpa [insertBeforeId] using ih

theorem adjacentIn_update (fn : List VBlock) (uid : Nat) (f : VInst → VInst)
    (a b : VInst) (ha : a.iid ≠ uid) (hb : b.iid ≠ uid)
    (h : adjacentIn fn a b) : adjacentIn (updateInst fn uid f) a b := by
  obtain ⟨bb, hbb, j, hja, hjb⟩ := h
  refine ⟨{ bb with instructions :=
      bb.instructions.map (fun i => if i.iid = uid then f i else i) },
    List.mem_map.2 ⟨bb, hbb, rfl⟩, j, ?_, ?_⟩
  · simp only [List.get?_map, hja, Option.map_some']
    rw [if_neg ha]
  · simp only [List.get?_map, hjb, Option.map_some']
    rw [if_neg hb]

theorem adjacentIn_insert (fn : List VBlock) (uid : Nat) (new : VInst)
    (a b : VInst) (hb : b.iid ≠ uid)
    (h : adjacentIn fn a b) : adjacentIn (insertBeforeId fn uid new) a b := by
  obtain ⟨bb, hbb, j, hja, hjb⟩ := h
  cases hfi : bb.instructions.findIdx? (fun i => i.iid == uid) with
  | none =>
    refine ⟨bb, ?_, j, hja, hjb⟩
    apply List.mem_map.2
    exact ⟨bb, hbb, by simp [hfi]⟩
  | some idx =>
    obtain ⟨hle, e, hge, hpe⟩ := findIdx?_spec bb.instructions _ idx hfi
    have hidxne : idx ≠ j + 1 := by
      intro hh
      subst hh
      rw [hjb] at hge
      simp only [Option.some.injEq] at hge
      subst hge
      simp only [beq_iff_eq] at hpe
      exact hb hpe
    refine ⟨{ bb with instructions :=
        bb.instructions.take idx ++ new :: bb.instructions.drop idx },
      List.mem_map.2 ⟨bb, hbb, by simp [hfi]⟩, ?_⟩
    by_cases hcase : idx ≤ j
    · refine ⟨j + 1, ?_, ?_⟩
      · rw [get?_insertAt bb.instructions idx new hle (j + 1),
          if_neg (by omega), if_neg (by omega)]
        simpa using hja
      · rw [get?_insertAt bb.instructions idx new hle (j + 2),
          if_neg (by omega), if_neg (by omega)]
        simpa using hjb
    · refine ⟨j, ?_, ?_⟩
      · rw [get?_insertAt bb.instructions idx new hle j, if_pos (by omega)]
        exact hja
      · rw [get?_insertAt bb.instructions idx new hle (j + 1), if_pos (by omega)]
        exact hjb

theorem allInsts_update_mem (fn : List VBlock) (uid : Nat) (f : VInst → VInst)
    (i : VInst) (h : i ∈ allInsts (updateInst fn uid f)) :
    ∃ i0 ∈ allInsts fn, i = (if i0.iid = uid then f i0 else i0) := by
  simp only [allInsts, updateInst, List.mem_flatten, List.mem_map] at h
  obtain ⟨l, ⟨bb2, ⟨bb, hbb, rfl⟩, rfl⟩, hi⟩ := h
  simp only [List.mem_map] at hi
  obtain ⟨i0, hi0, rfl⟩ := hi
  refine ⟨i0, ?_, rfl⟩
  simp only [allInsts, List.mem_flatten, List.mem_map]
  exact ⟨bb.instructions, ⟨bb, hbb, rfl⟩, hi0⟩

theorem allInsts_insert_mem (fn : List VBlock) (uid : Nat) (new : VInst)
    (i : VInst) (h : i ∈ allInsts (insertBeforeId fn uid new)) :
    i ∈ allInsts fn ∨ i = new := by
  simp only [allInsts, insertBeforeId, List.mem_flatten, List.mem_map] at h
  obtain ⟨l, ⟨bb2, ⟨bb, hbb, rfl⟩, rfl⟩, hi⟩ := h
  cases hfi : bb.instructions.findIdx? (fun i => i.iid == uid) with
  | none =>
    rw [hfi] at hi
    left
    simp only [allInsts, List.mem_flatten, List.mem_map]
    exact ⟨bb.instructions, ⟨bb, hbb, rfl⟩, hi⟩
  | some idx =>
    rw [hfi] at hi
    simp only [List.mem_append, List.mem_cons] at hi
    rcases hi with hi | hi | hi
    · left
      simp only [allInsts, List.mem_flatten, List.mem_map]
      exact ⟨bb.instructions, ⟨bb, hbb, rfl⟩, List.mem_of_mem_take hi⟩
    · right; exact hi
    · left
      simp only [allInsts, List.mem_flatten, List.mem_map]
      exact ⟨bb.instructions, ⟨bb, hbb, rfl⟩, List.mem_of_mem_drop hi⟩

theorem adjacentIn_update_pair (fn : List VBlock) (uid : Nat) (f : VInst → VInst)
    (a b : VInst) (ha : a.iid ≠ uid) (hbiid : b.iid = uid)
    (h : adjacentIn fn a b) : adjacentIn (updateInst fn uid f) a (f b) := by
  obtain ⟨bb, hbb, j, hja, hjb⟩ := h
  refine ⟨{ bb with instructions :=
      bb.instructions.map (fun i => if i.iid = uid then f i else i) },
    List.mem_map.2 ⟨bb, hbb, rfl⟩, j, ?_, ?_⟩
  · simp only [List.get?_map, hja, Option.map_some']
    rw [if_neg ha]
  · simp only [List.get?_map, hjb, Option.map_some']
    rw [if_pos hbiid]

theorem insertBeforeId_establishes (fn : List VBlock) (uid : Nat) (new : VInst)
    (inst : VInst) (h : lookupInst fn uid = some inst) :
    adjacentIn (insertBeforeId fn uid new) new inst := by
  induction fn with
  | nil => simp [lookupInst] at h
  | cons bb rest ih =>
    simp only [lookupInst] at h
    cases hf : bb.instructions.find? (fun i => i.iid == uid) with
    | some j =>
      rw [hf] at h
      simp only [Option.some.injEq] at h
      obtain ⟨idx, hidx, hget⟩ := find?_of_findIdx? bb.instructions _ j hf
      rw [h] at hget
      obtain ⟨hle, e, hge, hpe⟩ := findIdx?_spec bb.instructions _ idx hidx
      refine ⟨{ bb with instructions :=
          bb.instructions.take idx ++ new :: bb.instructions.drop idx },
        ?_, idx, ?_, ?_⟩
      · simp only [insertBeforeId, List.map_cons, hidx]
        exact List.mem_cons_self _ _
      · rw [get?_insertAt bb.instructions idx new hle idx, if_neg (by omega),
          if_pos rfl]
      · rw [get?_insertAt bb.instructions idx new hle (idx + 1), if_neg (by omega),
          if_neg (by omega)]
        simpa using hget
    | none =>
      rw [hf] at h
      obtain ⟨bb2, hbb2, j, hja, hjb⟩ := ih h
      refine ⟨bb2, ?_, j, hja, hjb⟩
      simp only [insertBeforeId, List.map_cons, List.mem_cons]
      right
      exact hbb2

/-- The per-use rewriting performed by the promotion loop, described
relative to the state `fn0` in which the use was looked up. -/
def c5UseSpec (fn0 fnF : List VBlock) (varName : String) (uid : Nat) : Prop :=
  ∀ inst, lookupInst fn0 uid = some inst →
    (inst.opcode = "mload" →
      lookupInst fnF uid = some { inst with
        opcode := "store", operands := [VOp.var (mkVarName varName)] }) ∧
    (inst.opcode = "mstore" →
      lookupInst fnF uid = some { inst with
        opcode := "store", output := some (mkVarName varName),
        operands := inst.operands.take 1 }) ∧
    (inst.opcode = "return" →
      ∀ ptr, inst.operands.get? 1 = some ptr →
        ∃ k, lookupInst fnF uid = some { inst with
                operands := inst.operands.set 1 (VOp.var ("%" ++ toString k)) } ∧
          adjacentIn fnF
            { iid := 1000000 + k, opcode := "mstore",
              operands := [VOp.var (mkVarName varName), ptr],
              output := some ("%" ++ toString k) }
            { inst with operands := inst.operands.set 1 (VOp.var ("%" ++ toString k)) })

theorem lookupInst_update_ne (fn : List VBlock) (uid : Nat) (f : VInst → VInst)
    (hf : ∀ i, (f i).iid = i.iid) (x : Nat) (hx : x ≠ uid) :
    lookupInst (updateInst fn uid f) x = lookupInst fn x := by
  rw [lookupInst_update fn uid f hf x]
  cases h : lookupInst fn x with
  | none => rfl
  | some i =>
    have := lookupInst_iid fn x i h
    simp only [Option.map_some']
    rw [if_neg (by rw [this]; exact hx)]

theorem lookupInst_update_self (fn : List VBlock) (uid : Nat) (f : VInst → VInst)
    (hf : ∀ i, (f i).iid = i.iid) (inst : VInst)
    (h : lookupInst fn uid = some inst) :
    lookupInst (updateInst fn uid f) uid = some (f inst) := by
  rw [lookupInst_update fn uid f hf uid, h]
  have := lookupInst_iid fn uid inst h
  simp only [Option.map_some']
  rw [if_pos this]

theorem transformUse_step (varName : String) (fn : List VBlock) (ctr : Nat) (uid : Nat)
    (fn1 : List VBlock) (c1 : Nat)
    (hbig : ∀ i ∈ allInsts fn, i.iid < 1000000 + ctr)
    (huid : uid < 1000000)
    (hstep : mem2varTransformUse varName (fn, ctr) uid = (fn1, c1)) :
    ctr ≤ c1 ∧ c1 ≤ ctr + 1 ∧
    (∀ i ∈ allInsts fn1, i.iid < 1000000 + c1) ∧
    (∀ x, x ≠ uid → x < 1000000 + ctr → lookupInst fn1 x = lookupInst fn x) ∧
    (∀ a b, adjacentIn fn a b → a.iid ≠ uid → b.iid ≠ uid → adjacentIn fn1 a b) ∧
    c5UseSpec fn fn1 varName uid := by
  simp only [mem2varTransformUse] at hstep
  cases hlook : lookupInst fn uid with
  | none =>
    rw [hlook] at hstep
    injection hstep with h1 h2
    subst h1
    subst h2
    refine ⟨le_refl _, by omega, hbig, fun x _ _ => rfl, fun a b h _ _ => h, ?_⟩
    intro inst h
    rw [hlook] at h
    exact absurd h (by simp)
  | some inst =>
    rw [hlook] at hstep
    simp only at hstep
    have hiid : inst.iid = uid := lookupInst_iid fn uid inst hlook
    by_cases hms : inst.opcode = "mstore"
    · rw [if_pos hms] at hstep
      injection hstep with h1 h2
      subst h1
      subst h2
      have hf1 : ∀ i : VInst, (({ i with
          opcode := "store", output := some (mkVarName varName),
          operands := i.operands.take 1 } : VInst)).iid = i.iid := fun i => rfl
      refine ⟨le_refl _, by omega, ?_, ?_, ?_, ?_⟩
      · intro i hi
        obtain ⟨i0, hi0, heq⟩ := allInsts_update_mem fn uid _ i hi
        subst heq
        have hlt := hbig i0 hi0
        by_cases hc : i0.iid = uid <;> simp [hc, hf1] <;> omega
      · intro x hx _
        exact lookupInst_update_ne fn uid _ hf1 x hx
      · intro a b h ha hb
        exact adjacentIn_update fn uid _ a b ha hb h
      · intro inst2 h2
        rw [hlook] at h2
        simp only [Option.some.injEq] at h2
        subst h2
        refine ⟨?_, ?_, ?_⟩
        · intro hop
          rw [hms] at hop
          exact absurd hop (by decide)
        · intro _
          exact lookupInst_update_self fn uid _ hf1 inst hlook
        · intro hop
          rw [hms] at hop
          exact absurd hop (by decide)
    · rw [if_neg hms] at hstep
      by_cases hml : inst.opcode = "mload"
      · rw [if_pos hml] at hstep
        injection hstep with h1 h2
        subst h1
        subst h2
        have hf1 : ∀ i : VInst, (({ i with
            opcode := "store",
            operands := [VOp.var (mkVarName varName)] } : VInst)).iid = i.iid :=
          fun i => rfl
        refine ⟨le_refl _, by omega, ?_, ?_, ?_, ?_⟩
        · intro i hi
          obtain ⟨i0, hi0, heq⟩ := allInsts_update_mem fn uid _ i hi
          subst heq
          have hlt := hbig i0 hi0
          by_cases hc : i0.iid = uid <;> simp [hc, hf1] <;> omega
        · intro x hx _
          exact lookupInst_update_ne fn uid _ hf1 x hx
        · intro a b h ha hb
          exact adjacentIn_update fn uid _ a b ha hb h
        · intro inst2 h2
          rw [hlook] at h2
          simp only [Option.some.injEq] at h2
          subst h2
          refine ⟨?_, ?_, ?_⟩
          · intro _
            exact lookupInst_update_self fn uid _ hf1 inst hlook
          · intro hop
            rw [hml] at hop
            exact absurd hop (by decide)
          · intro hop
            rw [hml] at hop
            exact absurd hop (by decide)
      · rw [if_neg hml] at hstep
        by_cases hret : inst.opcode = "return"
        · rw [if_pos hret] at hstep
          cases hptr : inst.operands.get? 1 with
          | none =>
            rw [hptr] at hstep
            injection hstep with h1 h2
            subst h1
            subst h2
            refine ⟨le_refl _, by omega, hbig, fun x _ _ => rfl,
              fun a b h _ _ => h, ?_⟩
            intro inst2 h2
            rw [hlook] at h2
            simp only [Option.some.injEq] at h2
            subst h2
            refine ⟨?_, ?_, ?_⟩
            · intro hop
              rw [hret] at hop
              exact absurd hop (by decide)
            · intro hop
              rw [hret] at hop
              exact absurd hop (by decide)
            · intro _ ptr hp
              rw [hptr] at hp
              exact absurd hp (by simp)
          | some ptr =>
            rw [hptr] at hstep
            simp only at hstep
            injection hstep with h1 h2
            subst h1
            subst h2
            have hf3 : ∀ i : VInst, (({ i with
                operands := i.operands.set 1
                  (VOp.var ("%" ++ toString ctr)) } : VInst)).iid = i.iid :=
              fun i => rfl
            have hmstiid : (1000000 + ctr) ≠ uid := by omega
            refine ⟨by omega, by omega, ?_, ?_, ?_, ?_⟩
            · intro i hi
              obtain ⟨i0, hi0, heq⟩ := allInsts_update_mem _ uid _ i hi
              subst heq
              rcases allInsts_insert_mem fn uid _ i0 hi0 with hin | hin
              · have := hbig i0 hin
                by_cases hc : i0.iid = uid <;> simp [hc, hf3] <;> omega
              · subst hin
                by_cases hc : (1000000 + ctr) = uid
                · exact absurd hc (by omega)
                · simp [hc, hf3]
            · intro x hx hxlt
              rw [lookupInst_update_ne _ uid _ hf3 x hx,
                lookupInst_insert fn uid _ x (by simp; omega)]
            · intro a b h ha hb
              exact adjacentIn_update _ uid _ a b ha hb
                (adjacentIn_insert fn uid _ a b hb h)
            · intro inst2 h2
              rw [hlook] at h2
              simp only [Option.some.injEq] at h2
              subst h2
              refine ⟨?_, ?_, ?_⟩
              · intro hop
                rw [hret] at hop
                exact absurd hop (by decide)
              · intro hop
                rw [hret] at hop
                exact absurd hop (by decide)
              · intro _ ptr2 hp2
                rw [hptr] at hp2
                simp only [Option.some.injEq] at hp2
                subst hp2
                refine ⟨ctr, ?_, ?_⟩
                · have hl2 : lookupInst (insertBeforeId fn uid
                      ⟨1000000 + ctr, "mstore",
                        [VOp.var (mkVarName varName), ptr],
                        some ("%" ++ toString ctr), none⟩) uid
                      = some inst := by
                    rw [lookupInst_insert fn uid _ uid (by simp; omega)]
                    exact hlook
                  exact lookupInst_update_self _ uid _ hf3 inst hl2
                · have hadj := insertBeforeId_establishes fn uid
                    ⟨1000000 + ctr, "mstore",
                      [VOp.var (mkVarName varName), ptr],
                      some ("%" ++ toString ctr), none⟩ inst hlook
                  exact adjacentIn_update_pair _ uid _ _ inst
                    (by simp; omega) hiid hadj
        · rw [if_neg hret] at hstep
          injection hstep with h1 h2
          subst h1
          subst h2
          refine ⟨le_refl _, by omega, hbig, fun x _ _ => rfl,
            fun a b h _ _ => h, ?_⟩
          intro inst2 h2
          rw [hlook] at h2
          simp only [Option.some.injEq] at h2
          subst h2
          exact ⟨fun hop => absurd hop hml, fun hop => absurd hop hms,
            fun hop => absurd hop hret⟩

theorem transformUse_fold (varName : String) (uses : List Nat) :
    ∀ (fn : List VBlock) (ctr : Nat) (fn1 : List VBlock) (c1 : Nat),
    (∀ i ∈ allInsts fn, i.iid < 1000000 + ctr) →
    uses.Nodup →
    (∀ u ∈ uses, u < 1000000) →
    uses.foldl (mem2varTransformUse varName) (fn, ctr) = (fn1, c1) →
    ctr ≤ c1 ∧
    (∀ i ∈ allInsts fn1, i.iid < 1000000 + c1) ∧
    (∀ x, x ∉ uses → x < 1000000 + ctr → lookupInst fn1 x = lookupInst fn x) ∧
    (∀ a b, adjacentIn fn a b → (∀ u ∈ uses, a.iid ≠ u) → (∀ u ∈ uses, b.iid ≠ u) →
      adjacentIn fn1 a b) ∧
    (∀ u ∈ uses, c5UseSpec fn fn1 varName u) := by
  induction uses with
  | nil =>
    intro fn ctr fn1 c1 hbig _ _ hfold
    simp only [List.foldl_nil] at hfold
    injection hfold with h1 h2
    subst h1
    subst h2
    exact ⟨le_refl _, hbig, fun x _ _ => rfl, fun a b h _ _ => h, by simp⟩
  | cons u rest ih =>
    intro fn ctr fn1 c1 hbig hnd hsmall hfold
    have hu0 : u < 1000000 := hsmall u (by simp)
    have hur : u ∉ rest := (List.nodup_cons.mp hnd).1
    have hndr : rest.Nodup := (List.nodup_cons.mp hnd).2
    have hsr : ∀ v ∈ rest, v < 1000000 := fun v hv => hsmall v (by simp [hv])
    simp only [List.foldl_cons] at hfold
    cases hst1 : mem2varTransformUse varName (fn, ctr) u with
    | mk fnm cm =>
      rw [hst1] at hfold
      obtain ⟨hc1, hc2, hbig1, hframe1, hadj1, hspec1⟩ :=
        transformUse_step varName fn ctr u fnm cm hbig hu0 hst1
      obtain ⟨hm1, hbigF, hframeR, hadjR, hspecR⟩ :=
        ih fnm cm fn1 c1 hbig1 hndr hsr hfold
      refine ⟨by omega, hbigF, ?_, ?_, ?_⟩
      · intro x hx hxlt
        have hx1 : x ∉ rest := fun h => hx (by simp [h])
        have hxu : x ≠ u := fun h => hx (by simp [h])
        rw [hframeR x hx1 (by omega), hframe1 x hxu hxlt]
      · intro a b hab ha hb
        have ha1 : ∀ v ∈ rest, a.iid ≠ v := fun v hv => ha v (by simp [hv])
        have hb1 : ∀ v ∈ rest, b.iid ≠ v := fun v hv => hb v (by simp [hv])
        exact hadjR a b (hadj1 a b hab (ha u (by simp)) (hb u (by simp))) ha1 hb1
      · intro v hv
        rcases List.mem_cons.mp hv with h | hv'
        · subst h
          intro inst hlook
          obtain ⟨hml, hms, hret⟩ := hspec1 inst hlook
          have hiid : inst.iid = v := lookupInst_iid fn v inst hlook
          refine ⟨?_, ?_, ?_⟩
          · intro hop
            rw [hframeR v hur (by omega)]
            exact hml hop
          · intro hop
            rw [hframeR v hur (by omega)]
            exact hms hop
          · intro hop ptr hp
            obtain ⟨k, hk1, hk2⟩ := hret hop ptr hp
            refine ⟨k, ?_, ?_⟩
            · rw [hframeR v hur (by omega)]
              exact hk1
            · refine hadjR _ _ hk2 ?_ ?_
              · intro w hw heq
                have h2 : 1000000 + k = w := heq
                have := hsr w hw
                omega
              · intro w hw heq
                have h2 : inst.iid = w := heq
                rw [hiid] at h2
                subst h2
                exact hur hw
        · have hvne : v ≠ u := fun h => hur (h ▸ hv')
          have hvlt : v < 1000000 := hsr v hv'
          intro inst hlook
          exact hspecR v hv' inst (by rw [hframe1 v hvne (by omega)]; exact hlook)

/-- C5 (amended): `Mem2Var._process_alloca_var` with distinct use
identities (Python object identities are distinct) all below the
fresh-identity range.  When every use is an `mload`, or every use is an
`mstore`, or some use is outside `{mstore, mload, return}`, the function
and the fresh-variable counter are returned unchanged — in particular an
alloca whose uses are all loads (or all stores) is NOT promoted even
though each use is in the allowed set.  Only when the uses are a mix
drawn from `{mstore, mload, return}` that is neither all-`mload` nor
all-`mstore` is the alloca promoted, and then: every instruction not in
the use list is unchanged, and each use is rewritten —
`mload` becomes `store` of the promoted register into its old output,
`mstore` becomes a `store` of the stored value into the promoted
register, and each `return` keeps its opcode but its buffer operand is
replaced by a fresh variable defined by a new `mstore` of the promoted
register inserted directly before it. -/
theorem c5_amended (fn : List VBlock) (uses : List Nat) (varName : String) (ctr : Nat)
    (hbig : ∀ i ∈ allInsts fn, i.iid < 1000000 + ctr)
    (hnd : uses.Nodup)
    (hsmall : ∀ u ∈ uses, u < 1000000) :
    (((uses.filterMap (lookupInst fn)).all (fun i => i.opcode == "mload") = true ∨
      (uses.filterMap (lookupInst fn)).all (fun i => i.opcode == "mstore") = true ∨
      (uses.filterMap (lookupInst fn)).all
        (fun i => i.opcode == "mstore" || i.opcode == "mload" || i.opcode == "return")
        = false) →
      mem2varProcessAllocaVar fn uses varName ctr = (fn, ctr)) ∧
    ((uses.filterMap (lookupInst fn)).all (fun i => i.opcode == "mload") = false →
     (uses.filterMap (lookupInst fn)).all (fun i => i.opcode == "mstore") = false →
     (uses.filterMap (lookupInst fn)).all
       (fun i => i.opcode == "mstore" || i.opcode == "mload" || i.opcode == "return")
       = true →
      ctr ≤ (mem2varProcessAllocaVar fn uses varName ctr).2 ∧
      (∀ x, x ∉ uses → x < 1000000 + ctr →
        lookupInst (mem2varProcessAllocaVar fn uses varName ctr).1 x = lookupInst fn x) ∧
      (∀ u ∈ uses,
        c5UseSpec fn (mem2varProcessAllocaVar fn uses varName ctr).1 varName u)) := by
  constructor
  · intro hcase
    rcases hcase with h | h | h
    · simp [mem2varProcessAllocaVar, h]
    · by_cases h0 : (uses.filterMap (lookupInst fn)).all (fun i => i.opcode == "mload") = true
      · simp [mem2varProcessAllocaVar, h0]
      · have h0f := Bool.eq_false_iff.mpr h0
        simp [mem2varProcessAllocaVar, h, h0f]
    · by_cases h0 : (uses.filterMap (lookupInst fn)).all (fun i => i.opcode == "mload") = true
      · simp [mem2varProcessAllocaVar, h0]
      · have h0f := Bool.eq_false_iff.mpr h0
        by_cases h1 : (uses.filterMap (lookupInst fn)).all (fun i => i.opcode == "mstore") = true
        · simp [mem2varProcessAllocaVar, h1, h0f]
        · have h1f := Bool.eq_false_iff.mpr h1
          simp [mem2varProcessAllocaVar, h, h0f, h1f]
  · intro h1 h2 h3
    have hres : mem2varProcessAllocaVar fn uses varName ctr
        = uses.foldl (mem2varTransformUse varName) (fn, ctr) := by
      simp [mem2varProcessAllocaVar, h1, h2, h3]
    cases hfold : uses.foldl (mem2varTransformUse varName) (fn, ctr) with
    | mk fn1 c1 =>
      obtain ⟨ha, hb, hc, _, he⟩ :=
        transformUse_fold varName uses fn ctr fn1 c1 hbig hnd hsmall hfold
      rw [hres, hfold]
      exact ⟨ha, hc, he⟩

/-- The C5 witness function: an alloca stored once, loaded once and
returned. -/
def c5wFn : List VBlock :=
  [{ label := "bb0",
     instructions :=
       [{ iid := 0, opcode := "alloca", operands := [], output := some "%a" },
        { iid := 1, opcode := "mstore", operands := [.var "%v", .var "%a"], output := none },
        { iid := 2, opcode := "mload", operands := [.var "%a"], output := some "%x" },
        { iid := 3, opcode := "return", operands := [.lit 32, .var "%a"], output := none }] }]

theorem c5_amended_witness :
    (∀ i ∈ allInsts c5wFn, i.iid < 1000000 + 0) ∧
    ([1, 2, 3] : List Nat).Nodup ∧
    (∀ u ∈ ([1, 2, 3] : List Nat), u < 1000000) ∧
    (∀ u ∈ ([1, 2, 3] : List Nat),
      c5UseSpec c5wFn (mem2varProcessAllocaVar c5wFn [1, 2, 3] "addr%a_0" 0).1
        "addr%a_0" u) := by
  refine ⟨by decide, by decide, by decide, ?_⟩
  exact ((c5_amended c5wFn [1, 2, 3] "addr%a_0" 0 (by decide) (by decide) (by decide)).2
    (by decide) (by decide) (by decide)).2.2

/-- A Venom function: name and basic blocks in order (`IRFunction` lives
in `function.py`, which is not under `src/`.  Modelled from the spec:
a function is its ordered list of basic blocks and `entry` is the first
block). -/
structure VFunc where
  name : String
  blocks : List VBlock
deriving DecidableEq, Repr

/-- `IRInstruction.copy(prefix)` (basicblock.py): label operands are
re-created unprefixed, variable operands become
`IRVariable(prefix + op.name)` (the constructor prepends `%` when the
result does not start with one), literals are kept, the output variable
is prefixed the same way, and the opcode and annotation are
preserved. -/
def instCopy (pfx : String) (i : VInst) : VInst :=
  { i with
    operands := i.operands.map (fun op =>
      match op with
      | VOp.lbl l => VOp.lbl l
      | VOp.var v => VOp.var (mkVarName (pfx ++ v))
      | VOp.lit n => VOp.lit n),
    output := i.output.map (fun o => mkVarName (pfx ++ o)) }

/-- `IRBasicBlock.copy(prefix)` (basicblock.py): the label is prefixed,
every instruction is copied with the prefix, and `cfg_in`, `cfg_out` and
`out_vars` start empty on the fresh block. -/
def blockCopy (pfx : String) (bb : VBlock) : VBlock :=
  { label := pfx ++ bb.label,
    instructions := bb.instructions.map (instCopy pfx),
    cfgIn := [], cfgOut := [], outVars := [], garbage := [] }

/-- `IRFunction.copy(prefix)` (`function.py` is not under `src/`.
Modelled from the spec: copy the callee's blocks with a fresh prefix on
labels and variable names). -/
def funcCopy (pfx : String) (f : VFunc) : VFunc :=
  { name := pfx ++ f.name, blocks := f.blocks.map (blockCopy pfx) }

/-- The rewrite `_inline_call_site` applies to each instruction of a
copied callee block: a `param` annotated `return_buffer` becomes a
`store` of `call_site.operands[1:2]`; a `param` annotated `return_pc`
becomes a `nop` (operands and output untouched); any other `param` is
left as it is; a `ret` becomes `jmp` to the return block's label; label
operands of `jmp`/`jnz`/`djmp` are prefixed; everything else is
untouched. -/
def inlineRewriteInst (callOps : List VOp) (retLabel : String) (pfx : String)
    (inst : VInst) : VInst :=
  if inst.opcode = "param" then
    if inst.annot = some "return_buffer" then
      { inst with opcode := "store", operands := (callOps.drop 1).take 1 }
    else if inst.annot = some "return_pc" then
      { inst with opcode := "nop" }
    else inst
  else if inst.opcode = "ret" then
    { inst with opcode := "jmp", operands := [VOp.lbl retLabel] }
  else if inst.opcode = "jmp" ∨ inst.opcode = "jnz" ∨ inst.opcode = "djmp" then
    { inst with operands := inst.operands.map (fun op =>
        match op with
        | VOp.lbl l => VOp.lbl (pfx ++ l)
        | other => other) }
  else inst

/-- Repeated `insert_instruction(inst)` (no index): each call asserts the
block is not yet terminated and appends at the end; `none` models a
failed assertion. -/
def appendInsts (bb : VBlock) : List VInst → Option VBlock
  | [] => some bb
  | i :: rest =>
    if bb.isTerminated then none
    else appendInsts { bb with instructions := bb.instructions ++ [i] } rest

/-- `IRContext.get_next_label` (context.py): a non-empty suffix gets an
underscore prepended, `last_label` is incremented, and the fresh label
is the new counter value followed by the suffix.  Returns the updated
counter and the label text. -/
def getNextLabel (lastLabel : Nat) (suffix : String) : Nat × String :=
  let sfx := if suffix = "" then "" else "_" ++ suffix
  (lastLabel + 1, toString (lastLabel + 1) ++ sfx)

/-- The products of `_inline_call_site`: the fresh return block, the
rewritten copies of the callee blocks (in order), the truncated caller
block, and the context label counter after the `get_next_label`
call. -/
structure InlineResult where
  retBlock : VBlock
  newBlocks : List VBlock
  caller : VBlock
  lastLabel : Nat
deriving DecidableEq, Repr

/-- `FuncInlinerPass._inline_call_site`.  The return-block label comes
from `ctx.get_next_label(f"{prefix}inline_return")` (context.py);
`func_copy.entry` is the first copied block (`IRFunction` lives in
`function.py`, not under `src/`).  `none` models a failed assertion
(appending past a terminator). -/
def inlineCallSite (pfx : String) (lastLabel : Nat) (callerBB : VBlock) (callIdx : Nat)
    (func : VFunc) : Option InlineResult :=
  match callerBB.instructions.get? callIdx with
  | none => none
  | some callSite =>
    let retLabel := (getNextLabel lastLabel (pfx ++ "inline_return")).2
    let retBB0 : VBlock :=
      { label := retLabel, instructions := [] }
    match appendInsts retBB0 (callerBB.instructions.drop (callIdx + 1)) with
    | none => none
    | some retBB =>
      let fc := funcCopy pfx func
      let newBlocks := fc.blocks.map (fun bb =>
        { bb with instructions :=
            bb.instructions.map (inlineRewriteInst callSite.operands retLabel pfx) })
      let truncated := { callerBB with instructions := callerBB.instructions.take callIdx }
      if truncated.isTerminated then none
      else
        match fc.blocks.head? with
        | none => none
        | some entry =>
          some { retBlock := retBB, newBlocks := newBlocks,
                 caller := { truncated with instructions := truncated.instructions ++
                   [{ iid := 0, opcode := "jmp",
                      operands := [VOp.lbl entry.label], output := none }] },
                 lastLabel := (getNextLabel lastLabel (pfx ++ "inline_return")).1 }

theorem appendInsts_some (l : List VInst) :
    ∀ (bb bb' : VBlock), appendInsts bb l = some bb' →
      bb'.instructions = bb.instructions ++ l ∧ bb'.label = bb.label ∧
      bb'.cfgIn = bb.cfgIn ∧ bb'.cfgOut = bb.cfgOut ∧ bb'.outVars = bb.outVars ∧
      bb'.garbage = bb.garbage := by
  induction l with
  | nil =>
    intro bb bb' h
    simp only [appendInsts, Option.some.injEq] at h
    subst h
    simp
  | cons i rest ih =>
    intro bb bb' h
    simp only [appendInsts] at h
    by_cases ht : bb.isTerminated = true
    · rw [if_pos ht] at h
      exact absurd h (by simp)
    · rw [if_neg ht] at h
      obtain ⟨h1, h2, h3, h4, h5, h6⟩ := ih _ _ h
      simp only at h1 h2 h3 h4 h5 h6
      refine ⟨?_, h2, h3, h4, h5, h6⟩
      rw [h1]
      simp

/-- The C6 callee: a return-buffer param, a return-pc param, an ordinary
argument param (annotated with the argument's name, as
`ir_node_to_venom` emits it), and a `ret`. -/
def c6Callee : VFunc :=
  { name := "f",
    blocks :=
      [{ label := "f_entry",
         instructions :=
           [{ iid := 10, opcode := "param", operands := [],
              output := some "%buf_p", annot := some "return_buffer" },
            { iid := 11, opcode := "param", operands := [],
              output := some "%pc_p", annot := some "return_pc" },
            { iid := 12, opcode := "param", operands := [],
              output := some "%arg0", annot := some "x" },
            { iid := 13, opcode := "ret", operands := [.var "%pc_p"] }] }] }

/-- The C6 caller block: an `invoke` of the callee passing the return
buffer and one actual argument, followed by a `stop`. -/
def c6CallerBB : VBlock :=
  { label := "main",
    instructions :=
      [{ iid := 0, opcode := "invoke",
         operands := [.lbl "f", .var "%b", .var "%a0"], output := some "%o" },
       { iid := 1, opcode := "stop", operands := [] }] }

/-- The invoke instruction of the C6 caller block. -/
def c6Invoke : VInst :=
  { iid := 0, opcode := "invoke",
    operands := [.lbl "f", .var "%b", .var "%a0"], output := some "%o" }

/-- C6 counterexample: after inlining, the copied callee still contains
a `param` instruction — the ordinary argument param (annotated `x`) is
not rewritten to a `store` of the caller's actual argument `%a0`; only
the `return_buffer` param became a `store` (of the return buffer) and
the `return_pc` param became a `nop`.  (The return block's label is
`get_next_label("inline_0_inline_return")` with the counter at 0, i.e.
`1_inline_0_inline_return`.) -/
theorem c6_counterexample :
    (inlineCallSite "inline_0_" 0 c6CallerBB 0 c6Callee).map
        (fun r => (r.newBlocks.map VBlock.instructions).flatten.map
          (fun i => (i.opcode, i.operands, i.annot)))
      = some [("store", [VOp.var "%b"], some "return_buffer"),
              ("nop", [], some "return_pc"),
              ("param", [], some "x"),
              ("jmp", [VOp.lbl "1_inline_0_inline_return"], none)] ∧
    ("param" : String) ≠ "store" := by
  refine ⟨by rfl, by decide⟩

/-- C6 (amended): `_inline_call_site` creates a return block whose
label is `ctx.get_next_label(f"{prefix}inline_return")` — the
incremented label counter followed by `_{prefix}inline_return` — and
which contains exactly the caller-block instructions that followed the
invoke; it copies every callee block (label prefixed, variables
prefixed) and rewrites each copied instruction as follows — a `param`
annotated `return_buffer` becomes a `store` of
`call_site.operands[1:2]` (the return buffer actual), a `param`
annotated `return_pc` becomes a `nop`, any OTHER `param` (ordinary
argument params included) is left unchanged, and a `ret` becomes a
`jmp` to the return block; finally the caller block is truncated to
the instructions before the invoke followed by a `jmp` to the copied
entry block, and the context label counter has been bumped once. -/
theorem c6_amended (pfx : String) (lastLabel : Nat) (callerBB : VBlock) (callIdx : Nat)
    (func : VFunc) (callSite : VInst) (res : InlineResult)
    (hcs : callerBB.instructions.get? callIdx = some callSite)
    (hres : inlineCallSite pfx lastLabel callerBB callIdx func = some res) :
    res.retBlock.instructions = callerBB.instructions.drop (callIdx + 1) ∧
    res.retBlock.label = (getNextLabel lastLabel (pfx ++ "inline_return")).2 ∧
    res.newBlocks.length = func.blocks.length ∧
    (∀ k bb, func.blocks.get? k = some bb →
      res.newBlocks.get? k = some
        { label := pfx ++ bb.label,
          instructions := (bb.instructions.map (instCopy pfx)).map
            (inlineRewriteInst callSite.operands
              (getNextLabel lastLabel (pfx ++ "inline_return")).2 pfx),
          cfgIn := [], cfgOut := [], outVars := [], garbage := [] }) ∧
    (∀ i : VInst,
      (i.opcode = "param" → i.annot = some "return_buffer" →
        inlineRewriteInst callSite.operands
            (getNextLabel lastLabel (pfx ++ "inline_return")).2 pfx i
          = { i with opcode := "store",
                     operands := (callSite.operands.drop 1).take 1 }) ∧
      (i.opcode = "param" → i.annot = some "return_pc" →
        inlineRewriteInst callSite.operands
            (getNextLabel lastLabel (pfx ++ "inline_return")).2 pfx i
          = { i with opcode := "nop" }) ∧
      (i.opcode = "param" → i.annot ≠ some "return_buffer" →
        i.annot ≠ some "return_pc" →
        inlineRewriteInst callSite.operands
          (getNextLabel lastLabel (pfx ++ "inline_return")).2 pfx i = i) ∧
      (i.opcode = "ret" →
        inlineRewriteInst callSite.operands
            (getNextLabel lastLabel (pfx ++ "inline_return")).2 pfx i
          = { i with opcode := "jmp",
                     operands := [VOp.lbl (getNextLabel lastLabel (pfx ++ "inline_return")).2] })) ∧
    (∀ entry, func.blocks.head? = some entry →
      res.caller.instructions = callerBB.instructions.take callIdx ++
        [{ iid := 0, opcode := "jmp", operands := [VOp.lbl (pfx ++ entry.label)],
           output := none }]) ∧
    res.caller.label = callerBB.label ∧
    res.lastLabel = lastLabel + 1 := by
  simp only [inlineCallSite] at hres
  rw [hcs] at hres
  simp only at hres
  cases happ : appendInsts
      { label := (getNextLabel lastLabel (pfx ++ "inline_return")).2, instructions := [] }
      (callerBB.instructions.drop (callIdx + 1)) with
  | none =>
    rw [happ] at hres
    exact absurd hres (by simp)
  | some retBB =>
    rw [happ] at hres
    simp only at hres
    by_cases ht : ({ callerBB with
        instructions := callerBB.instructions.take callIdx } : VBlock).isTerminated = true
    · rw [if_pos ht] at hres
      exact absurd hres (by simp)
    · rw [if_neg ht] at hres
      cases hh : (funcCopy pfx func).blocks.head? with
      | none =>
        rw [hh] at hres
        exact absurd hres (by simp)
      | some entry =>
        rw [hh] at hres
        simp only [Option.some.injEq] at hres
        subst hres
        obtain ⟨hri, hrl, _, _, _, _⟩ := appendInsts_some _ _ _ happ
        refine ⟨by simpa using hri, by simpa using hrl, ?_, ?_, ?_, ?_, ?_, ?_⟩
        · simp [funcCopy]
        · intro k bb hbb
          simp only [funcCopy, List.map_map, List.get?_map, hbb, Option.map_some]
          simp [blockCopy, Function.comp]
        · intro i
          refine ⟨?_, ?_, ?_, ?_⟩
          · intro hp hrb
            simp [inlineRewriteInst, hp, hrb]
          · intro hp hrp
            have hne : i.annot ≠ some "return_buffer" := by
              rw [hrp]; simp
            simp [inlineRewriteInst, hp, hrp, hne]
          · intro hp h1 h2
            simp [inlineRewriteInst, hp, h1, h2]
          · intro hr
            simp [inlineRewriteInst, hr]
        · intro entry2 hh2
          have hmap : (funcCopy pfx func).blocks.head?
              = (func.blocks.head?).map (blockCopy pfx) := by
            simp [funcCopy]
          rw [hmap, hh2] at hh
          have hh3 : blockCopy pfx entry2 = entry := by simpa using hh
          subst hh3
          rfl
        · rfl
        · rfl

/-- The result of inlining the C6 callee at the C6 call site (label
counter starting at 0). -/
def c6Res : InlineResult :=
  match inlineCallSite "inline_0_" 0 c6CallerBB 0 c6Callee with
  | some r => r
  | none =>
    { retBlock := { label := "", instructions := [] },
      newBlocks := [],
      caller := { label := "", instructions := [] },
      lastLabel := 0 }

theorem c6_amended_witness :
    c6CallerBB.instructions.get? 0 = some c6Invoke ∧
    inlineCallSite "inline_0_" 0 c6CallerBB 0 c6Callee = some c6Res ∧
    c6Res.retBlock.instructions = c6CallerBB.instructions.drop (0 + 1) :=
  ⟨rfl, rfl,
   (c6_amended "inline_0_" 0 c6CallerBB 0 c6Callee c6Invoke c6Res rfl rfl).1⟩

/-- Generic Python-dict lookup over an insertion-ordered association
list. -/
def dlook {α : Type} (m : List (String × α)) (k : String) : Option α :=
  (m.find? (fun p => p.1 == k)).map (fun p => p.2)

/-- Python-dict assignment `m[k] = v`: replace in place when the key is
present, append otherwise. -/
def dset {α : Type} (m : List (String × α)) (k : String) (v : α) : List (String × α) :=
  if (m.find? (fun p => p.1 == k)).isSome
  then m.map (fun p => if p.1 == k then (k, v) else p)
  else m ++ [(k, v)]

/-- `m.setdefault(k, []).append(v)`: append to the existing list, or
insert the key at the end with a singleton list. -/
def dappend {α : Type} (m : List (String × List α)) (k : String) (v : α) :
    List (String × List α) :=
  if (m.find? (fun p => p.1 == k)).isSome
  then m.map (fun p => if p.1 == k then (p.1, p.2 ++ [v]) else p)
  else m ++ [(k, [v])]

/-- Look a block up by label (blocks are held by reference in Python; we
locate them by their label, which is unique in a function). -/
def lookupBlock (fn : List VBlock) (l : String) : Option VBlock :=
  fn.find? (fun b => b.label == l)

/-- A memory SSA access that can serve as a reaching definition: a
`MemoryDef` (version and the store instruction's identity) or a
`MemoryPhi` (version and its block).  `MemoryUse`s never serve as
reaching definitions. -/
inductive MemAccess where
  | mdef (version : Nat) (storeIid : Nat)
  | mphi (version : Nat) (block : String)
deriving DecidableEq, Repr

/-- `MemoryUse`: version, the load instruction's identity, and the
`reaching_def` pointer (`None` until `_connect_uses_to_defs`). -/
structure MemUse where
  version : Nat
  loadIid : Nat
  reachingDef : Option MemAccess := none
deriving DecidableEq, Repr

/-- `MemoryPhi`: version, owning block, operand list of (reaching def,
predecessor block) pairs. -/
structure MemPhi where
  version : Nat
  block : String
  operands : List (MemAccess × String)
deriving DecidableEq, Repr

/-- The mutable state of the `MemSSA` pass object. -/
structure MemSSAState where
  nextVersion : Nat
  memoryDefs : List (String × List MemAccess)
  memoryUses : List (String × List MemUse)
  memoryPhis : List (String × MemPhi)
  currentDef : List (String × MemAccess)
deriving DecidableEq, Repr

/-- `MemSSA._process_block_definitions`: walk the block's instructions;
a store creates a `MemoryDef` (fresh version) appended to
`memory_defs[block]` and recorded in `current_def[block]`; a load
creates a `MemoryUse` (fresh version) appended to
`memory_uses[block]`. -/
def processBlockDefinitions (loadOp storeOp : String) (st : MemSSAState)
    (bb : VBlock) : MemSSAState :=
  bb.instructions.foldl (fun st inst =>
    if inst.opcode = storeOp then
      let d := MemAccess.mdef st.nextVersion inst.iid
      { st with
        nextVersion := st.nextVersion + 1,
        memoryDefs := dappend st.memoryDefs bb.label d,
        currentDef := dset st.currentDef bb.label d }
    else if inst.opcode = loadOp then
      let u : MemUse := { version := st.nextVersion, loadIid := inst.iid }
      { st with
        nextVersion := st.nextVersion + 1,
        memoryUses := dappend st.memoryUses bb.label u }
    else st) st

/-- `MemSSA._get_reaching_def`: the block's registered memory phi if
there is one, else the LAST `MemoryDef` of the block, else (when the
block has predecessors) the reaching def of the immediate dominator
(`None` when the idom is missing or the block has no predecessors).
`DominatorTreeAnalysis` lives in `analysis/dominators.py`, which is not
under `src/`; `idom` is taken as an input.  Recursion along the idom
chain is fuelled; fuel 0 yields `None`. -/
def getReachingDef (fn : List VBlock) (idom : List (String × String))
    (phis : List (String × MemPhi)) (defs : List (String × List MemAccess)) :
    Nat → String → Option MemAccess
  | 0, _ => none
  | fuel+1, b =>
    match dlook phis b with
    | some phi => some (MemAccess.mphi phi.version phi.block)
    | none =>
      match dlook defs b with
      | some ds => ds.getLast?
      | none =>
        match lookupBlock fn b with
        | none => none
        | some bb =>
          if bb.cfgIn.isEmpty then none
          else
            match dlook idom b with
            | none => none
            | some d => getReachingDef fn idom phis defs fuel d

/-- One frontier inspection inside `_insert_phi_nodes`: if the frontier
block has no phi yet, build one — version `next_version`, operands
collected from each predecessor's reaching def (with the new phi NOT
yet registered) — then bump the version, register the phi and push the
frontier on the worklist. -/
def insertPhiAtFrontier (fn : List VBlock) (idom : List (String × String))
    (rdFuel : Nat) (acc : MemSSAState × List String) (frontier : String) :
    MemSSAState × List String :=
  let st := acc.1
  let wl := acc.2
  if (dlook st.memoryPhis frontier).isSome then (st, wl)
  else
    let preds := ((lookupBlock fn frontier).map VBlock.cfgIn).getD []
    let ops := preds.foldl (fun ops pred =>
      match getReachingDef fn idom st.memoryPhis st.memoryDefs rdFuel pred with
      | some r => ops ++ [(r, pred)]
      | none => ops) []
    let phi : MemPhi := { version := st.nextVersion, block := frontier, operands := ops }
    ({ st with
       nextVersion := st.nextVersion + 1,
       memoryPhis := st.memoryPhis ++ [(frontier, phi)] },
     wl ++ [frontier])

/-- `MemSSA._insert_phi_nodes` worklist loop: pop the LAST worklist
entry, inspect each of its dominator frontiers, repeat.  The frontier
map comes from the dominator analysis (not under `src/`), taken as an
input.  The loop is fuelled; the real loop terminates because a phi is
inserted at most once per block. -/
def insertPhiNodes (fn : List VBlock) (idom : List (String × String))
    (front : List (String × List String)) (rdFuel : Nat) :
    Nat → MemSSAState → List String → MemSSAState
  | 0, st, _ => st
  | fuel+1, st, wl =>
    match wl.getLast? with
    | none => st
    | some block =>
      let acc := ((dlook front block).getD []).foldl
        (insertPhiAtFrontier fn idom rdFuel) (st, wl.dropLast)
      insertPhiNodes fn idom front rdFuel fuel acc.1 acc.2

/-- One iteration of `_connect_uses_to_defs`: compute the block-level
reaching def once and assign it to EVERY `MemoryUse` of the block. -/
def connectStep (fn : List VBlock) (idom : List (String × String))
    (rdFuel : Nat) (st : MemSSAState) (b : String) : MemSSAState :=
  let r := getReachingDef fn idom st.memoryPhis st.memoryDefs rdFuel b
  match dlook st.memoryUses b with
  | none => st
  | some uses =>
    { st with
      memoryUses := dset st.memoryUses b (uses.map (fun u => { u with reachingDef := r })) }

/-- `MemSSA._connect_uses_to_defs`: the iteration over the dfs walk. -/
def connectUsesToDefs (fn : List VBlock) (idom : List (String × String))
    (rdFuel : Nat) (walk : List String) (st : MemSSAState) : MemSSAState :=
  walk.foldl (connectStep fn idom rdFuel) st

/-- Python `op[1] == phi` in `_remove_redundant_phis`: `op[1]` is an
`IRBasicBlock`, `phi` a `MemoryPhi`; neither class defines `__eq__`, so
`==` between the two distinct objects is identity comparison and is
always `False`. -/
def blockEqPhiObj (_b : String) (_phi : MemPhi) : Bool := false

/-- `MemSSA._remove_redundant_phis`: delete `memory_phis[phi.block]`
for every phi with `all(op[1] == phi for op in phi.operands)`. -/
def removeRedundantPhis (st : MemSSAState) : MemSSAState :=
  { st with
    memoryPhis := st.memoryPhis.filter (fun p => !(p.2.operands.all (fun op => blockEqPhiObj op.2 p.2))) }

/-- The state after the def/use scan and phi insertion (the first two
passes of `_build_memory_ssa`).  `dfs_walk` comes from the dominator
analysis (not under `src/`), taken as an input; the initial worklist is
`list(memory_defs.keys())`. -/
def memSSAPhase2 (loadOp storeOp : String) (fn : List VBlock) (walk : List String)
    (idom : List (String × String)) (front : List (String × List String))
    (rdFuel wlFuel : Nat) : MemSSAState :=
  let st0 : MemSSAState :=
    { nextVersion := 0, memoryDefs := [], memoryUses := [], memoryPhis := [],
      currentDef := [] }
  let st1 := walk.foldl (fun st lbl =>
    match lookupBlock fn lbl with
    | none => st
    | some bb => processBlockDefinitions loadOp storeOp st bb) st0
  insertPhiNodes fn idom front rdFuel wlFuel st1 (st1.memoryDefs.map (fun p => p.1))

/-- `MemSSA._build_memory_ssa`: defs/uses, then phis, then connect. -/
def memSSABuild (loadOp storeOp : String) (fn : List VBlock) (walk : List String)
    (idom : List (String × String)) (front : List (String × List String))
    (rdFuel wlFuel : Nat) : MemSSAState :=
  connectUsesToDefs fn idom rdFuel walk
    (memSSAPhase2 loadOp storeOp fn walk idom front rdFuel wlFuel)

/-- `MemSSA.run_pass` state effect: build, then remove redundant
phis. -/
def memSSARun (loadOp storeOp : String) (fn : List VBlock) (walk : List String)
    (idom : List (String × String)) (front : List (String × List String))
    (rdFuel wlFuel : Nat) : MemSSAState :=
  removeRedundantPhis (memSSABuild loadOp storeOp fn walk idom front rdFuel wlFuel)

theorem dlook_mapConv_self {α : Type} (k : String) (v : α) :
    ∀ m : List (String × α), (m.find? (fun p => p.1 == k)).isSome = true →
      dlook (m.map (fun q => if q.1 == k then (k, v) else q)) k = some v := by
  intro m
  induction m with
  | nil => intro h; simp [List.find?] at h
  | cons p rest ih =>
    intro h
    by_cases hp : p.1 = k
    · simp [dlook, List.find?, hp]
    · have hp' : (p.1 == k) = false := by simpa using hp
      have h2 : (rest.find? (fun p => p.1 == k)).isSome = true := by
        simpa [List.find?, hp'] using h
      simpa [dlook, List.find?, hp'] using ih h2

theorem dlook_append_single_self {α : Type} (k : String) (v : α) :
    ∀ m : List (String × α), (m.find? (fun p => p.1 == k)).isSome = false →
      dlook (m ++ [(k, v)]) k = some v := by
  intro m
  induction m with
  | nil => intro _; simp [dlook, List.find?]
  | cons p rest ih =>
    intro h
    have hp' : (p.1 == k) = false := by
      by_cases hp : p.1 = k
      · exfalso
        simp [List.find?, hp] at h
      · simpa using hp
    have h2 : (rest.find? (fun p => p.1 == k)).isSome = false := by
      simpa [List.find?, hp'] using h
    simpa [dlook, List.find?, hp'] using ih h2

theorem dlook_dset_self {α : Type} (k : String) (v : α) (m : List (String × α)) :
    dlook (dset m k v) k = some v := by
  unfold dset
  by_cases hc : (m.find? (fun p => p.1 == k)).isSome = true
  · rw [if_pos hc]
    exact dlook_mapConv_self k v m hc
  · rw [if_neg hc]
    exact dlook_append_single_self k v m (Bool.eq_false_iff.mpr hc)

theorem dlook_mapConv_ne {α : Type} (k k' : String) (v : α) (hne : k' ≠ k) :
    ∀ m : List (String × α),
      dlook (m.map (fun q => if q.1 == k then (k, v) else q)) k' = dlook m k' := by
  intro m
  induction m with
  | nil => rfl
  | cons p rest ih =>
    by_cases hp : p.1 = k
    · have hkk : (k == k') = false := by
        simp
        exact fun h => hne h.symm
      have hpk' : (p.1 == k') = false := by rw [hp]; exact hkk
      simpa [dlook, List.find?, hp, hkk, hpk'] using ih
    · have hp' : (p.1 == k) = false := by simpa using hp
      by_cases hq : p.1 = k'
      · have hq2 : (p.1 == k') = true := by simpa using hq
        simp [dlook, List.find?, hp', hq2]
      · have hq' : (p.1 == k') = false := by simpa using hq
        simpa [dlook, List.find?, hp', hq'] using ih

theorem dlook_append_single_ne {α : Type} (k k' : String) (v : α) (hne : k' ≠ k) :
    ∀ m : List (String × α), dlook (m ++ [(k, v)]) k' = dlook m k' := by
  intro m
  induction m with
  | nil =>
    have hkk : (k == k') = false := by
      simp
      exact fun h => hne h.symm
    simp [dlook, List.find?, hkk]
  | cons p rest ih =>
    by_cases hq : p.1 = k'
    · have hq2 : (p.1 == k') = true := by simpa using hq
      simp [dlook, List.find?, hq2]
    · have hq' : (p.1 == k') = false := by simpa using hq
      simpa [dlook, List.find?, hq'] using ih

theorem dlook_dset_ne {α : Type} (k k' : String) (v : α) (hne : k' ≠ k)
    (m : List (String × α)) : dlook (dset m k v) k' = dlook m k' := by
  unfold dset
  by_cases hc : (m.find? (fun p => p.1 == k)).isSome = true
  · rw [if_pos hc]
    exact dlook_mapConv_ne k k' v hne m
  · rw [if_neg hc]
    exact dlook_append_single_ne k k' v hne m

theorem connectStep_phis (fn : List VBlock) (idom : List (String × String))
    (rdFuel : Nat) (st : MemSSAState) (b : String) :
    (connectStep fn idom rdFuel st b).memoryPhis = st.memoryPhis := by
  cases h : dlook st.memoryUses b with
  | none => simp [connectStep, h]
  | some uses => simp [connectStep, h]

theorem connectStep_defs (fn : List VBlock) (idom : List (String × String))
    (rdFuel : Nat) (st : MemSSAState) (b : String) :
    (connectStep fn idom rdFuel st b).memoryDefs = st.memoryDefs := by
  cases h : dlook st.memoryUses b with
  | none => simp [connectStep, h]
  | some uses => simp [connectStep, h]

theorem connectStep_uses_none (fn : List VBlock) (idom : List (String × String))
    (rdFuel : Nat) (st : MemSSAState) (b : String)
    (h : dlook st.memoryUses b = none) :
    connectStep fn idom rdFuel st b = st := by
  simp [connectStep, h]

theorem connectStep_uses_some (fn : List VBlock) (idom : List (String × String))
    (rdFuel : Nat) (st : MemSSAState) (b : String) (uses : List MemUse)
    (h : dlook st.memoryUses b = some uses) :
    (connectStep fn idom rdFuel st b).memoryUses
      = dset st.memoryUses b (uses.map (fun u =>
          { u with reachingDef :=
              getReachingDef fn idom st.memoryPhis st.memoryDefs rdFuel b })) := by
  simp [connectStep, h]

theorem connectStep_uses_other (fn : List VBlock) (idom : List (String × String))
    (rdFuel : Nat) (st : MemSSAState) (b b' : String) (hne : b' ≠ b) :
    dlook (connectStep fn idom rdFuel st b).memoryUses b'
      = dlook st.memoryUses b' := by
  cases h : dlook st.memoryUses b with
  | none => rw [connectStep_uses_none fn idom rdFuel st b h]
  | some uses =>
    rw [connectStep_uses_some fn idom rdFuel st b uses h]
    exact dlook_dset_ne b b' _ hne st.memoryUses

theorem connect_spec (fn : List VBlock) (idom : List (String × String)) (rdFuel : Nat) :
    ∀ (walk : List String) (st : MemSSAState), walk.Nodup →
      (connectUsesToDefs fn idom rdFuel walk st).memoryPhis = st.memoryPhis ∧
      (connectUsesToDefs fn idom rdFuel walk st).memoryDefs = st.memoryDefs ∧
      (∀ b, b ∉ walk →
        dlook (connectUsesToDefs fn idom rdFuel walk st).memoryUses b
          = dlook st.memoryUses b) ∧
      (∀ b ∈ walk, ∀ uses, dlook st.memoryUses b = some uses →
        dlook (connectUsesToDefs fn idom rdFuel walk st).memoryUses b
          = some (uses.map (fun u =>
              { u with reachingDef :=
                  getReachingDef fn idom st.memoryPhis st.memoryDefs rdFuel b }))) := by
  intro walk
  induction walk with
  | nil =>
    intro st _
    exact ⟨rfl, rfl, fun b _ => rfl, by simp⟩
  | cons b0 rest ih =>
    intro st hnd
    have hb0nr : b0 ∉ rest := (List.nodup_cons.mp hnd).1
    have hndr : rest.Nodup := (List.nodup_cons.mp hnd).2
    have hfold : connectUsesToDefs fn idom rdFuel (b0 :: rest) st
        = connectUsesToDefs fn idom rdFuel rest (connectStep fn idom rdFuel st b0) :=
      rfl
    obtain ⟨ih1, ih2, ih3, ih4⟩ := ih (connectStep fn idom rdFuel st b0) hndr
    refine ⟨?_, ?_, ?_, ?_⟩
    · rw [hfold, ih1, connectStep_phis]
    · rw [hfold, ih2, connectStep_defs]
    · intro b hb
      have hbne : b ≠ b0 := fun h => hb (by simp [h])
      have hbnr : b ∉ rest := fun h => hb (by simp [h])
      rw [hfold, ih3 b hbnr, connectStep_uses_other fn idom rdFuel st b0 b hbne]
    · intro b hb uses huse
      rcases List.mem_cons.mp hb with h | hbr
      · subst h
        rw [hfold, ih3 b hb0nr,
          connectStep_uses_some fn idom rdFuel st b uses huse]
        exact dlook_dset_self b _ st.memoryUses
      · have hbne : b ≠ b0 := fun h => hb0nr (h ▸ hbr)
        have huse1 : dlook (connectStep fn idom rdFuel st b0).memoryUses b = some uses := by
          rw [connectStep_uses_other fn idom rdFuel st b0 b hbne]
          exact huse
        have hres := ih4 b hbr uses huse1
        rw [connectStep_phis, connectStep_defs] at hres
        rw [hfold]
        exact hres

/-- The C2 counterexample function: one block whose only load comes
BEFORE its only store. -/
def c2Fn : List VBlock :=
  [{ label := "bb0",
     instructions :=
       [{ iid := 1, opcode := "mload", operands := [.var "%p"], output := some "%x" },
        { iid := 2, opcode := "mstore", operands := [.var "%y", .var "%p"] },
        { iid := 3, opcode := "stop", operands := [] }],
     cfgIn := [] }]

/-- C2 counterexample: in `c2Fn` the block's only `mload` (identity 1)
precedes the block's only `mstore` (identity 2), the block has no
memory phi, no predecessor and no dominator chain, so the claimed
reaching definition — the latest store PRECEDING the load, else the
phi, else the idom chain — is `None`; yet after construction the use's
`reaching_def` is the `MemoryDef` of the store that FOLLOWS the load,
because `_connect_uses_to_defs` assigns every use of a block the
block-level `_get_reaching_def`, which takes the block's LAST store
regardless of positions. -/
theorem c2_counterexample :
    (c2Fn.head?.map (fun bb => bb.instructions.map (fun i => (i.iid, i.opcode))))
      = some [(1, "mload"), (2, "mstore"), (3, "stop")] ∧
    dlook (memSSABuild "mload" "mstore" c2Fn ["bb0"] [] [("bb0", [])] 4 4).memoryUses "bb0"
      = some [{ version := 0, loadIid := 1, reachingDef := some (MemAccess.mdef 1 2) }] ∧
    dlook (memSSABuild "mload" "mstore" c2Fn ["bb0"] [] [("bb0", [])] 4 4).memoryPhis "bb0"
      = none ∧
    (some (MemAccess.mdef 1 2) ≠ (none : Option MemAccess)) := by
  refine ⟨by rfl, by rfl, by rfl, by decide⟩

/-- The block-level reaching definition `_get_reaching_def(b)` computed
on the state after phi insertion (the value `_connect_uses_to_defs`
assigns to every use of `b`). -/
def memSSAReachingAfterPhis (loadOp storeOp : String) (fn : List VBlock)
    (walk : List String) (idom : List (String × String))
    (front : List (String × List String)) (rdFuel wlFuel : Nat) (b : String) :
    Option MemAccess :=
  getReachingDef fn idom
    (memSSAPhase2 loadOp storeOp fn walk idom front rdFuel wlFuel).memoryPhis
    (memSSAPhase2 loadOp storeOp fn walk idom front rdFuel wlFuel).memoryDefs
    rdFuel b

/-- C2 (amended): after `_build_memory_ssa`, EVERY `MemoryUse` of a
dfs-walk block `b` receives the same block-level reaching definition
`_get_reaching_def(b)` computed on the state after phi insertion —
irrespective of the use's position in the block — and that block-level
value gives the block's registered memory phi PRIORITY over the
block's own stores, else takes the block's LAST store (even when it
comes after the load), else follows the immediate-dominator chain
(None when the block has no predecessors or no idom). -/
theorem c2_amended (loadOp storeOp : String) (fn : List VBlock) (walk : List String)
    (idom : List (String × String)) (front : List (String × List String))
    (rdFuel wlFuel : Nat) (b : String) (uses : List MemUse)
    (hnd : walk.Nodup) (hb : b ∈ walk)
    (huses : dlook (memSSAPhase2 loadOp storeOp fn walk idom front rdFuel wlFuel).memoryUses b
      = some uses) :
    dlook (memSSABuild loadOp storeOp fn walk idom front rdFuel wlFuel).memoryUses b
      = some (uses.map (fun u =>
          { u with reachingDef :=
              memSSAReachingAfterPhis loadOp storeOp fn walk idom front rdFuel wlFuel b })) ∧
    (∀ (phis : List (String × MemPhi)) (defs : List (String × List MemAccess))
        (f : Nat) (phi : MemPhi), dlook phis b = some phi →
      getReachingDef fn idom phis defs (f + 1) b
        = some (MemAccess.mphi phi.version phi.block)) ∧
    (∀ (phis : List (String × MemPhi)) (defs : List (String × List MemAccess))
        (f : Nat) (ds : List MemAccess), dlook phis b = none → dlook defs b = some ds →
      getReachingDef fn idom phis defs (f + 1) b = ds.getLast?) := by
  refine ⟨?_, ?_, ?_⟩
  · exact (connect_spec fn idom rdFuel walk
      (memSSAPhase2 loadOp storeOp fn walk idom front rdFuel wlFuel) hnd).2.2.2
      b hb uses huses
  · intro phis defs f phi h
    simp [getReachingDef, h]
  · intro phis defs f ds h1 h2
    simp [getReachingDef, h1, h2]

theorem c2_amended_witness :
    (["bb0"] : List String).Nodup ∧
    "bb0" ∈ (["bb0"] : List String) ∧
    dlook (memSSAPhase2 "mload" "mstore" c2Fn ["bb0"] [] [("bb0", [])] 4 4).memoryUses "bb0"
      = some [{ version := 0, loadIid := 1 }] ∧
    dlook (memSSABuild "mload" "mstore" c2Fn ["bb0"] [] [("bb0", [])] 4 4).memoryUses "bb0"
      = some (([{ version := 0, loadIid := 1 }] : List MemUse).map (fun u =>
          { u with reachingDef :=
              memSSAReachingAfterPhis "mload" "mstore" c2Fn ["bb0"] [] [("bb0", [])] 4 4 "bb0" })) :=
  ⟨by decide, by decide, by rfl,
   (c2_amended "mload" "mstore" c2Fn ["bb0"] [] [("bb0", [])] 4 4 "bb0"
     [{ version := 0, loadIid := 1 }] (by decide) (by decide) (by rfl)).1⟩

/-- The C3 counterexample function: a store in a self-looping block, so
phi insertion places a memory phi at the loop header with a single
operand. -/
def c3Fn : List VBlock :=
  [{ label := "entry",
     instructions := [{ iid := 0, opcode := "jmp", operands := [.lbl "loop"] }],
     cfgIn := [], cfgOut := ["loop"] },
   { label := "loop",
     instructions :=
       [{ iid := 1, opcode := "mstore", operands := [.var "%v", .lit 0] },
        { iid := 2, opcode := "jnz", operands := [.var "%c", .lbl "loop", .lbl "exit"] }],
     cfgIn := ["entry", "loop"], cfgOut := ["loop", "exit"] },
   { label := "exit",
     instructions := [{ iid := 3, opcode := "stop", operands := [] }],
     cfgIn := ["loop"] }]

/-- The dfs walk of `c3Fn`. -/
def c3Walk : List String := ["entry", "loop", "exit"]

/-- The immediate dominators of `c3Fn` (the entry block has none). -/
def c3Idom : List (String × String) := [("loop", "entry"), ("exit", "loop")]

/-- The dominator frontiers of `c3Fn` (the loop header is in its own
frontier through the back edge). -/
def c3Front : List (String × List String) :=
  [("entry", []), ("loop", ["loop"]), ("exit", [])]

/-- The phi that `_insert_phi_nodes` builds at the loop header of
`c3Fn`: only the back-edge predecessor contributes an operand (the
entry block has no store and no predecessors), so every operand of the
phi is equal. -/
def c3Phi : MemPhi :=
  { version := 1, block := "loop", operands := [(MemAccess.mdef 0 1, "loop")] }

/-- C3 counterexample: after `run_pass` completes on `c3Fn`, the loop
phi is still registered in `memory_phis` although all of its operands
are equal (it has exactly one), because `all(op[1] == phi for op in
phi.operands)` compares each operand's BLOCK against the phi object —
always false between distinct objects of different classes — so
`_remove_redundant_phis` drops only phis with no operands at all. -/
theorem c3_counterexample :
    dlook (memSSARun "mload" "mstore" c3Fn c3Walk c3Idom c3Front 4 4).memoryPhis "loop"
      = some c3Phi ∧
    (∀ op1 ∈ c3Phi.operands, ∀ op2 ∈ c3Phi.operands, op1 = op2) ∧
    c3Phi.operands ≠ [] := by
  refine ⟨by rfl, by decide, by decide⟩

/-- C3 (amended): `_remove_redundant_phis` removes exactly the memory
phis whose operand list is EMPTY — `all(op[1] == phi ...)` holds only
vacuously, since `op[1]` is a basic block and `phi` a `MemoryPhi`, so
the comparison is cross-type object identity and always false — and it
touches nothing else: after `run_pass` the registered phis are
precisely the built phis with a non-empty operand list, and
`memory_uses`/`memory_defs` are those of `_build_memory_ssa`. -/
theorem c3_amended (loadOp storeOp : String) (fn : List VBlock) (walk : List String)
    (idom : List (String × String)) (front : List (String × List String))
    (rdFuel wlFuel : Nat) :
    (memSSARun loadOp storeOp fn walk idom front rdFuel wlFuel).memoryPhis
      = (memSSABuild loadOp storeOp fn walk idom front rdFuel wlFuel).memoryPhis.filter
          (fun p => !p.2.operands.isEmpty) ∧
    (∀ p ∈ (memSSARun loadOp storeOp fn walk idom front rdFuel wlFuel).memoryPhis,
      p.2.operands ≠ []) ∧
    (∀ p ∈ (memSSABuild loadOp storeOp fn walk idom front rdFuel wlFuel).memoryPhis,
      p.2.operands ≠ [] →
      p ∈ (memSSARun loadOp storeOp fn walk idom front rdFuel wlFuel).memoryPhis) ∧
    (memSSARun loadOp storeOp fn walk idom front rdFuel wlFuel).memoryUses
      = (memSSABuild loadOp storeOp fn walk idom front rdFuel wlFuel).memoryUses ∧
    (memSSARun loadOp storeOp fn walk idom front rdFuel wlFuel).memoryDefs
      = (memSSABuild loadOp storeOp fn walk idom front rdFuel wlFuel).memoryDefs := by
  have hpred : ∀ p : String × MemPhi,
      (!(p.2.operands.all (fun op => blockEqPhiObj op.2 p.2))) = !p.2.operands.isEmpty := by
    intro p
    cases p.2.operands <;> simp [blockEqPhiObj]
  have hfil : (memSSARun loadOp storeOp fn walk idom front rdFuel wlFuel).memoryPhis
      = (memSSABuild loadOp storeOp fn walk idom front rdFuel wlFuel).memoryPhis.filter
          (fun p => !p.2.operands.isEmpty) := by
    show ((memSSABuild loadOp storeOp fn walk idom front rdFuel wlFuel).memoryPhis.filter
        (fun p => !(p.2.operands.all (fun op => blockEqPhiObj op.2 p.2)))) = _
    exact List.filter_congr (fun p _ => hpred p)
  refine ⟨hfil, ?_, ?_, rfl, rfl⟩
  · intro p hp
    rw [hfil] at hp
    have := (List.mem_filter.mp hp).2
    simpa using this
  · intro p hp hne
    rw [hfil]
    refine List.mem_filter.mpr ⟨hp, ?_⟩
    simpa using hne

theorem c3_amended_witness :
    ("loop", c3Phi) ∈ (memSSABuild "mload" "mstore" c3Fn c3Walk c3Idom c3Front 4 4).memoryPhis ∧
    c3Phi.operands ≠ [] ∧
    ("loop", c3Phi) ∈ (memSSARun "mload" "mstore" c3Fn c3Walk c3Idom c3Front 4 4).memoryPhis :=
  ⟨by decide, by decide,
   (c3_amended "mload" "mstore" c3Fn c3Walk c3Idom c3Front 4 4).2.2.1
     ("loop", c3Phi) (by decide) (by decide)⟩
